import Mathlib

/-!
# gobyexample: a verification development

Shallow embedding of the five example programs
(`hello-world`, `multiple-return-values`, `goroutines`, `rate-limiting`, `select`).

Conventions of the embedding.

* Standard output is the list of the texts written by the successive `fmt.Println` calls
  (one entry per call, without the final newline).
* A Go channel is a record of its buffered values, its capacity and its closed flag; the three
  channel operations return `Op.done`, `Op.block` (the goroutine has to wait) or `Op.panic`.
* A concurrent program is a state machine: one event is one atomic step of one goroutine or of
  the run-time (a ticker firing, time passing).  A run is a list of events.
* Time is the ideal clock of the run-time, in milliseconds: a step of a goroutine takes no
  time, a ticker of interval `d` fires at the multiples of `d` after its creation, and
  `time.Sleep d` ends `d` after its start.  A run is *urgent* when time only passes while no
  goroutine can move.
-/

namespace GoByExample

/-! ## fmt.Println -/

/-- The operands of one `fmt.Println` call, separated by single blanks. -/
def sepBySpace : List String → String
  | [] => ""
  | [a] => a
  | a :: b :: rest => a ++ " " ++ sepBySpace (b :: rest)

/-- Standard output: one entry per `fmt.Println` call. -/
abbrev Stdout := List String

/-- The effect of `fmt.Println(args...)` on standard output. -/
def Println (out : Stdout) (args : List String) : Stdout :=
  out ++ [sepBySpace args]

/-! ## hello-world/hello-world.go -/

namespace HelloWorld

/-- The function `main` of hello-world.go. -/
def main : Stdout :=
  Println [] ["hello world"]

end HelloWorld

/-! ## multiple-return-values/multiple-return-values.go -/

namespace MultipleReturnValues

/-- The function `func vals() (int, int)`, whose body is `return 3, 7`. -/
def vals (_ : Unit) : Int × Int :=
  (3, 7)

/-- The function `main` of multiple-return-values.go: `a, b := vals()`, two prints,
`_, c := vals()`, one print. -/
def main : Stdout :=
  let (a, b) := vals ()
  let out := Println [] [toString a]
  let out := Println out [toString b]
  let (_, c) := vals ()
  Println out [toString c]

end MultipleReturnValues

/-! ## goroutines/goroutines.go -/

namespace Goroutines

/-- The loop `for i := 0; i < 3; i++ { fmt.Println(from, ":", i) }` of `f`, entered with the
loop variable at `i`. -/
def fLoop (from_ : String) (i : Nat) (out : Stdout) : Stdout :=
  if i < 3 then fLoop from_ (i + 1) (Println out [from_, ":", toString i]) else out
termination_by 3 - i

/-- The function `func f(from string)`: its loop, entered at 0. -/
def f (from_ : String) (out : Stdout) : Stdout :=
  fLoop from_ 0 out

end Goroutines

/-! ## Channels -/

/-- Outcome of a channel operation. -/
inductive Op (β : Type) where
  /-- The operation completes with a result. -/
  | done (r : β)
  /-- The operation cannot complete now: the goroutine waits. -/
  | block
  /-- Run-time panic. -/
  | panic
deriving DecidableEq, Repr

/-- A channel: its buffered values, oldest first, the capacity given to `make`, and
whether `close` was called on it. -/
structure Chan (α : Type) where
  buf : List α
  cap : Nat
  closed : Bool
deriving DecidableEq, Repr

namespace Chan

variable {α : Type}

/-- The channel made by `make(chan T, cap)`. -/
def make (cap : Nat) : Chan α :=
  { buf := [], cap := cap, closed := false }

/-- The send `c <- v` with no receiver waiting: panics on a closed channel, completes while the
buffer has room, waits otherwise. -/
def send (c : Chan α) (v : α) : Op (Chan α) :=
  if c.closed then Op.panic
  else if c.buf.length < c.cap then Op.done { c with buf := c.buf ++ [v] }
  else Op.block

/-- The receive `v, ok := <-c` with no sender waiting: the oldest buffered value; on an empty buffer the
zero value with `ok = false` (here `none`) when the channel is closed, and a wait otherwise. -/
def recv (c : Chan α) : Op (Option α × Chan α) :=
  match c.buf with
  | v :: rest => Op.done (some v, { c with buf := rest })
  | [] => if c.closed then Op.done (none, c) else Op.block

/-- The call `close(c)`: it panics when the channel is closed already. -/
def close (c : Chan α) : Op (Chan α) :=
  if c.closed then Op.panic else Op.done { c with closed := true }

/-- The send of the run-time ticker, `select { case c <- t: default: }`: the tick is
dropped when the send cannot complete at once. -/
def trySend (c : Chan α) (v : α) : Chan α :=
  match c.send v with
  | Op.done c1 => c1
  | _ => c

end Chan

/-- The value of an operation that completed, `dflt` otherwise. -/
def Op.getD {β : Type} (r : Op β) (dflt : β) : β :=
  match r with
  | Op.done b => b
  | _ => dflt

/-- Successive sends of the values of a list by one goroutine with no other goroutine on
the channel: the first send that cannot complete stops the sequence. -/
def Chan.sendAll {α : Type} (c : Chan α) : List α → Op (Chan α)
  | [] => Op.done c
  | v :: vs =>
    match c.send v with
    | Op.done c1 => Chan.sendAll c1 vs
    | Op.block => Op.block
    | Op.panic => Op.panic

/-! ## State machines -/

/-- Runs a list of events from a state; `none` when one of them is not enabled. -/
def runWith {σ ε : Type} (step : σ → ε → Option σ) (s : σ) : List ε → Option σ
  | [] => some s
  | e :: es =>
    match step s e with
    | some s1 => runWith step s1 es
    | none => none

/-! ## rate-limiting/rate-limiting.go

`main` runs two loops one after the other.  Each is a state machine of its own: the second
loop reads nothing the first one wrote (the channel `limiter` is not received from after
line 29), and its clock starts when its limiter is filled (line 38).

* `Plain`: lines 14-29, the loop over `requests` throttled by the channel of `time.Tick`.
* `Bursty`: lines 31-59, the loop over `burstyRequests` throttled by `burstyLimiter`, which
  the goroutine of lines 43-47 feeds from a ticker of its own.

The channel of a ticker has capacity 1 and the run-time sends to it without waiting: a tick
that finds the channel full is dropped.  The constants of the source are parameters here:
`n = 5` requests, capacity `k = 3`, interval `d = 200` ms.  `step` allows every interleaving
of ticks and goroutine steps; `ustep` only those in which the ticker fires while no
goroutine can move, which is how the program runs on the ideal clock.
-/

namespace RateLimiting

/-- Lines 14-18 (and 51-55), with `n` for the constant 5:
`requests := make(chan int, n); for i := 1; i <= n; i++ { requests <- i }; close(requests)`. -/
def mkRequests (n : Nat) : Op (Chan Nat) :=
  match (Chan.make n : Chan Nat).sendAll (List.range' 1 n) with
  | Op.done c => c.close
  | Op.block => Op.block
  | Op.panic => Op.panic

/-- Lines 34-39, with `k` for the constant 3 and `now` for `time.Now()`:
`burstyLimiter := make(chan time.Time, k); for i := 0; i < k; i++ { burstyLimiter <- now }`. -/
def mkBurstyLimiter (k now : Nat) : Op (Chan Nat) :=
  (Chan.make k : Chan Nat).sendAll (List.replicate k now)

/-- Where the main goroutine stands in `for req := range requests { <-limiter; Println }`. -/
inductive Pc where
  /-- At the head of the loop, about to receive from the requests channel. -/
  | atRange
  /-- Holding `req`, about to receive from the limiter. -/
  | atLimiter (req : Nat)
  /-- Past the loop. -/
  | finished
deriving DecidableEq, Repr

/-- Where the goroutine of lines 43-47 stands in
`for t := range time.Tick(d) { burstyLimiter <- t }`. -/
inductive Feeder where
  /-- About to receive from the ticker's channel. -/
  | atRange
  /-- Holding `t`, about to send it to `burstyLimiter`. -/
  | atSend (t : Nat)
  /-- Past the loop (the ticker's channel was closed). -/
  | exited
deriving DecidableEq, Repr

/-- The atomic steps of the two loops. -/
inductive Event where
  /-- The run-time ticker fires: one more interval has passed. -/
  | tick
  /-- The goroutine of lines 43-47 receives a tick (line 44). -/
  | feedRecv
  /-- The goroutine of lines 43-47 completes its send (line 45). -/
  | feedSend
  /-- The main goroutine takes the next request, or leaves the loop (lines 26, 56). -/
  | next
  /-- The main goroutine completes its receive from the limiter and prints (lines 27-28,
  57-58). -/
  | acquire
deriving DecidableEq, Repr

/-- State of the first loop (lines 20-29): the two channels, the number of ticks of the
ticker so far, and where `main` stands.  `out` holds one pair per printed line
`request req time`: the request and the time in ms since `time.Tick` was called, read off
the ticker as `ticks * d`: the time of the latest tick, which is the time of the print when
the loop moves as soon as it can (urgent runs), and is at most the time of the print when
the loop is late. -/
structure Plain where
  requests : Chan Nat
  limiter : Chan Nat
  ticks : Nat
  pc : Pc
  out : List (Nat × Nat)
deriving DecidableEq, Repr

/-- State of the second loop (lines 31-59), with the goroutine feeding `burstyLimiter`
from its own ticker channel `tickChan`.  As in `Plain`, the time in `out` is read off the
ticker as `ticks * d`: the time of the latest tick, which is the time of the print when the
loop moves as soon as it can, and is at most the time of the print when the loop is late. -/
structure Bursty where
  burstyRequests : Chan Nat
  burstyLimiter : Chan Nat
  tickChan : Chan Nat
  feeder : Feeder
  ticks : Nat
  pc : Pc
  out : List (Nat × Nat)
deriving DecidableEq, Repr

/-- The first loop at line 26: the queue of lines 14-18 and the channel of
`time.Tick`, which has capacity 1. -/
def Plain.init (n : Nat) : Plain :=
  { requests := (mkRequests n).getD (Chan.make n)
    limiter := Chan.make 1
    ticks := 0
    pc := Pc.atRange
    out := [] }

/-- One step of the first loop; `d` is the interval of the ticker in ms (200 in the
source). -/
def Plain.step (d : Nat) (s : Plain) : Event → Option Plain
  | Event.tick =>
    some { s with ticks := s.ticks + 1, limiter := s.limiter.trySend ((s.ticks + 1) * d) }
  | Event.next =>
    match s.pc with
    | Pc.atRange =>
      match s.requests.recv with
      | Op.done (some req, c) => some { s with requests := c, pc := Pc.atLimiter req }
      | Op.done (none, c) => some { s with requests := c, pc := Pc.finished }
      | _ => none
    | _ => none
  | Event.acquire =>
    match s.pc with
    | Pc.atLimiter req =>
      match s.limiter.recv with
      | Op.done (_, c) =>
        some { s with limiter := c, pc := Pc.atRange, out := s.out ++ [(req, s.ticks * d)] }
      | _ => none
    | _ => none
  | _ => none

/-- No goroutine of the first loop can move. -/
def Plain.idle (d : Nat) (s : Plain) : Bool :=
  (Plain.step d s Event.next).isNone && (Plain.step d s Event.acquire).isNone

/-- One step of an urgent run of the first loop: the ticker fires only when no goroutine
can move. -/
def Plain.ustep (d : Nat) (s : Plain) (e : Event) : Option Plain :=
  if e = Event.tick ∧ Plain.idle d s = false then none else Plain.step d s e

/-- The second loop at line 56: the limiter of lines 34-39 filled at time 0, the queue of
lines 51-55, and the goroutine of lines 43-47 at its `range` with the channel of its ticker. -/
def Bursty.init (k n : Nat) : Bursty :=
  { burstyRequests := (mkRequests n).getD (Chan.make n)
    burstyLimiter := (mkBurstyLimiter k 0).getD (Chan.make k)
    tickChan := Chan.make 1
    feeder := Feeder.atRange
    ticks := 0
    pc := Pc.atRange
    out := [] }

/-- One step of the second loop; `d` is the interval of the ticker in ms (200 in the
source). -/
def Bursty.step (d : Nat) (s : Bursty) : Event → Option Bursty
  | Event.tick =>
    some { s with ticks := s.ticks + 1, tickChan := s.tickChan.trySend ((s.ticks + 1) * d) }
  | Event.feedRecv =>
    match s.feeder with
    | Feeder.atRange =>
      match s.tickChan.recv with
      | Op.done (some t, c) => some { s with tickChan := c, feeder := Feeder.atSend t }
      | Op.done (none, c) => some { s with tickChan := c, feeder := Feeder.exited }
      | _ => none
    | _ => none
  | Event.feedSend =>
    match s.feeder with
    | Feeder.atSend t =>
      match s.burstyLimiter.send t with
      | Op.done c => some { s with burstyLimiter := c, feeder := Feeder.atRange }
      | _ => none
    | _ => none
  | Event.next =>
    match s.pc with
    | Pc.atRange =>
      match s.burstyRequests.recv with
      | Op.done (some req, c) => some { s with burstyRequests := c, pc := Pc.atLimiter req }
      | Op.done (none, c) => some { s with burstyRequests := c, pc := Pc.finished }
      | _ => none
    | _ => none
  | Event.acquire =>
    match s.pc with
    | Pc.atLimiter req =>
      match s.burstyLimiter.recv with
      | Op.done (_, c) =>
        some { s with burstyLimiter := c, pc := Pc.atRange,
                      out := s.out ++ [(req, s.ticks * d)] }
      | _ => none
    | _ => none

/-- No goroutine of the second loop can move. -/
def Bursty.idle (d : Nat) (s : Bursty) : Bool :=
  (Bursty.step d s Event.next).isNone && (Bursty.step d s Event.acquire).isNone &&
    (Bursty.step d s Event.feedRecv).isNone && (Bursty.step d s Event.feedSend).isNone

/-- One step of an urgent run of the second loop: the ticker fires only when no goroutine
can move. -/
def Bursty.ustep (d : Nat) (s : Bursty) (e : Event) : Option Bursty :=
  if e = Event.tick ∧ Bursty.idle d s = false then none else Bursty.step d s e

/-- The request the main goroutine holds, if any. -/
def Pc.held : Pc → List Nat
  | Pc.atLimiter req => [req]
  | _ => []

/-- The permit the feeding goroutine holds, if any. -/
def Feeder.held : Feeder → List Nat
  | Feeder.atSend t => [t]
  | _ => []

/-- The printed lines of a loop that serves the requests `1..n`, request `j` at time
`at j`. -/
def served (n : Nat) (time : Nat → Nat) : List (Nat × Nat) :=
  (List.range' 1 n).map (fun j => (j, time j))

/-- What holds in every state of the first loop, whatever the schedule; `n` requests were
queued and the ticker has interval `d`. -/
structure Plain.Inv (n d : Nat) (s : Plain) : Prop where
  queue : s.out.map Prod.fst ++ s.pc.held ++ s.requests.buf = List.range' 1 n
  reqClosed : s.requests.closed = true
  drained : s.pc = Pc.finished → s.requests.buf = []
  limCap : s.limiter.cap = 1
  limOpen : s.limiter.closed = false
  limLen : s.limiter.buf.length ≤ 1
  permits : s.out.length + s.limiter.buf.length ≤ s.ticks
  late : ∀ e ∈ s.out, e.1 * d ≤ e.2

/-- What holds in every state of an urgent run of the first loop. -/
structure Plain.UInv (n d : Nat) (s : Plain) : Prop where
  base : Plain.Inv n d s
  exact : s.pc ≠ Pc.finished → s.out.length + s.limiter.buf.length = s.ticks
  onTick : s.out = served s.out.length (fun j => j * d)

/-- The permits that can still be acquired without a further tick: those in the buffer of
`burstyLimiter`, the one the feeding goroutine holds at its send, and the one waiting in the
channel of the ticker. -/
def Bursty.available (s : Bursty) : Nat :=
  s.burstyLimiter.buf.length + s.feeder.held.length + s.tickChan.buf.length

/-- What holds in every state of the second loop, whatever the schedule; the limiter has
capacity `k`, `n` requests were queued and the ticker has interval `d`. -/
structure Bursty.Inv (k n d : Nat) (s : Bursty) : Prop where
  queue : s.out.map Prod.fst ++ s.pc.held ++ s.burstyRequests.buf = List.range' 1 n
  reqClosed : s.burstyRequests.closed = true
  drained : s.pc = Pc.finished → s.burstyRequests.buf = []
  limCap : s.burstyLimiter.cap = k
  limOpen : s.burstyLimiter.closed = false
  limLen : s.burstyLimiter.buf.length ≤ k
  tickCap : s.tickChan.cap = 1
  tickOpen : s.tickChan.closed = false
  tickLen : s.tickChan.buf.length ≤ 1
  alive : s.feeder ≠ Feeder.exited
  permits : s.out.length + s.available ≤ k + s.ticks
  late : ∀ e ∈ s.out, (e.1 - k) * d ≤ e.2

/-- What holds in every state of an urgent run of the second loop. -/
structure Bursty.UInv (k n d : Nat) (s : Bursty) : Prop where
  base : Bursty.Inv k n d s
  exact : s.pc ≠ Pc.finished → s.out.length + s.available = k + s.ticks
  caught : s.pc ≠ Pc.finished → 1 ≤ s.ticks → k + s.ticks ≤ s.out.length + 1
  onTime : s.out = served s.out.length (fun j => (j - k) * d)

/-- The urgent schedule of the first loop for five requests: each request is taken, waits
for the next tick and is served. -/
def Plain.mainSchedule : List Event :=
  [Event.next, Event.tick, Event.acquire, Event.next, Event.tick, Event.acquire,
    Event.next, Event.tick, Event.acquire, Event.next, Event.tick, Event.acquire,
    Event.next, Event.tick, Event.acquire, Event.next]

/-- The urgent schedule of the second loop for three permits and five requests: three
requests are served from the buffer, the last two after one tick each. -/
def Bursty.mainSchedule : List Event :=
  [Event.next, Event.acquire, Event.next, Event.acquire, Event.next, Event.acquire,
    Event.next, Event.tick, Event.feedRecv, Event.feedSend, Event.acquire,
    Event.next, Event.tick, Event.feedRecv, Event.feedSend, Event.acquire,
    Event.next]

/-- Three intervals pass with no step of the main goroutine: the feeding goroutine takes
the first tick, the ticker fires twice more. -/
def Bursty.idleSchedule : List Event :=
  [Event.tick, Event.feedRecv, Event.tick, Event.tick]

/-- The main goroutine serves five requests with no tick in between, the feeding goroutine
moving whenever it can. -/
def Bursty.burstSchedule : List Event :=
  [Event.next, Event.acquire, Event.next, Event.acquire, Event.next, Event.acquire,
    Event.feedSend, Event.next, Event.acquire, Event.feedRecv, Event.feedSend,
    Event.next, Event.acquire]

end RateLimiting

/-! ## select/select.go

`main` starts one goroutine per producer and then loops over a `select` with one case per
channel.  The two producers of the source are the list `[(1000, "one"), (2000, "two")]`;
the definitions take any list.  Time passes only while every goroutine waits (the `select`
for a sender, the senders for the `select`, the sleepers for the end of their sleep), and
then up to the end of the earliest sleep.
-/

namespace Select

/-- One goroutine `go func() { time.Sleep(delay); c <- msg }()`: the time it sleeps, in ms,
and the value it sends on its own channel. -/
structure Producer where
  delay : Nat
  msg : String
deriving DecidableEq, Repr

/-- Where a producer goroutine stands. -/
inductive Status where
  /-- In `time.Sleep`. -/
  | sleeping
  /-- At its send on the unbuffered channel, waiting for the receiver. -/
  | sending
  /-- Past its send: the goroutine has ended. -/
  | exited
deriving DecidableEq, Repr

/-- A producer goroutine at run time: the time its sleep ends, its value, where it stands. -/
structure Task where
  wake : Nat
  msg : String
  status : Status
deriving DecidableEq, Repr

/-- State of `main`: the clock in ms, goroutine `j` with channel `j` at position `j`, the loop
variable `i` of `for i := 0; i < bound; i++`, and one entry per printed line with the time
at which it is printed.  The channels are unbuffered and hold no value: channel `j` is
ready for the `select` exactly while goroutine `j` waits at its send. -/
structure State where
  now : Nat
  tasks : List Task
  i : Nat
  bound : Nat
  out : List (String × Nat)
deriving DecidableEq, Repr

/-- The atomic steps of the program. -/
inductive Event where
  /-- The sleep of goroutine `j` ends: it goes on to its send. -/
  | wake (j : Nat)
  /-- The `select` of the main goroutine takes the case of channel `j`, whose sender is
  waiting: the send and the receive complete together, the line is printed and the loop
  variable incremented. -/
  | recv (j : Nat)
  /-- Every goroutine waits: the clock moves to the end of the next sleep. -/
  | pass
deriving DecidableEq, Repr

/-- The state after `main` has started one goroutine per producer, at the head of its loop:
one `select` case per channel, and as many iterations as there are channels. -/
def init (ps : List Producer) : State :=
  { now := 0
    tasks := ps.map (fun p => { wake := p.delay, msg := p.msg, status := Status.sleeping })
    i := 0
    bound := ps.length
    out := [] }

/-- The program of select.go: "one" after 1 s on `c1`, "two" after 2 s on `c2`. -/
def main : State :=
  init [{ delay := 1000, msg := "one" }, { delay := 2000, msg := "two" }]

/-- Goroutine `j` moves on to `st`. -/
def update (j : Nat) (st : Status) : List Task → List Task
  | [] => []
  | t :: ts =>
    match j with
    | 0 => { t with status := st } :: ts
    | j + 1 => t :: update j st ts

/-- The end of the earliest sleep still running, if any. -/
def nextWake : List Task → Option Nat
  | [] => none
  | t :: ts =>
    if t.status = Status.sleeping then
      match nextWake ts with
      | some w => some (min t.wake w)
      | none => some t.wake
    else nextWake ts

/-- Some goroutine can move now: a sleep is over, or a sender waits for the `select`. -/
def canMove (s : State) : Bool :=
  s.tasks.any (fun t =>
    (decide (t.status = Status.sleeping) && decide (t.wake ≤ s.now)) ||
      decide (t.status = Status.sending))

/-- The line printed for a received value: `fmt.Println("received", msg)`. -/
def line (msg : String) : String :=
  sepBySpace ["received", msg]

/-- One step of the program.  Once the loop has ended `main` returns and nothing moves any
more; time passes only while no goroutine can move. -/
def step (s : State) (e : Event) : Option State :=
  if s.bound ≤ s.i then none
  else
    match e with
    | Event.wake j =>
      match s.tasks[j]? with
      | some t =>
        if t.status = Status.sleeping ∧ t.wake ≤ s.now then
          some { s with tasks := update j Status.sending s.tasks }
        else none
      | none => none
    | Event.recv j =>
      match s.tasks[j]? with
      | some t =>
        if t.status = Status.sending then
          some { s with tasks := update j Status.exited s.tasks,
                        out := s.out ++ [(line t.msg, s.now)],
                        i := s.i + 1 }
        else none
      | none => none
    | Event.pass =>
      if canMove s then none
      else
        match nextWake s.tasks with
        | some w => some { s with now := w }
        | none => none

/-- The lines of the goroutines that have ended, each with the end of its sleep. -/
def reported : List Task → List (String × Nat)
  | [] => []
  | t :: ts =>
    if t.status = Status.exited then (line t.msg, t.wake) :: reported ts else reported ts

/-- The steps a goroutine still has to take. -/
def Status.weight : Status → Nat
  | Status.sleeping => 2
  | Status.sending => 1
  | Status.exited => 0

/-- The steps the goroutines still have to take. -/
def weight : List Task → Nat
  | [] => 0
  | t :: ts => t.status.weight + weight ts

/-- The largest of the delays, 0 when there is none. -/
def maxDelay (ps : List Producer) : Nat :=
  (ps.map Producer.delay).foldr max 0

/-- The sum of the delays. -/
def sumDelay (ps : List Producer) : Nat :=
  (ps.map Producer.delay).sum

/-- The schedule of the program: the clock moves to 1 s, the first goroutine wakes and is
received, the clock moves to 2 s, the second goroutine wakes and is received. -/
def mainSchedule : List Event :=
  [Event.pass, Event.wake 0, Event.recv 0, Event.pass, Event.wake 1, Event.recv 1]

/-- What holds in every state of the program started with the producers `ps`. -/
structure Inv (ps : List Producer) (s : State) : Prop where
  shape : s.tasks.map (fun t => ({ delay := t.wake, msg := t.msg } : Producer)) = ps
  bound : s.bound = ps.length
  count : s.i = s.out.length
  sleepLater : ∀ t ∈ s.tasks, t.status = Status.sleeping → s.now ≤ t.wake
  sendNow : ∀ t ∈ s.tasks, t.status = Status.sending → t.wake = s.now
  exitedPast : ∀ t ∈ s.tasks, t.status = Status.exited → t.wake ≤ s.now
  outPerm : s.out.Perm (reported s.tasks)
  clock : s.now = 0 ∨ ∃ t ∈ s.tasks, t.wake = s.now

end Select

/-! ## Theorems -/

/-- C9: `vals()` returns the pair (3, 7) on every call, and `main` of
multiple-return-values prints exactly the three lines 3, 7, 7, in that order. -/
theorem MultipleReturnValues.vals_main :
    (∀ u : Unit, MultipleReturnValues.vals u = (3, 7)) ∧
      MultipleReturnValues.main = ["3", "7", "7"] := by
  refine ⟨fun _ => rfl, ?_⟩
  decide

theorem Goroutines.line_eq (from_ : String) (i : Nat) :
    sepBySpace [from_, ":", toString i] = from_ ++ (" : " ++ toString i) := by
  simp only [sepBySpace]
  rw [String.append_assoc, String.append_assoc]
  rfl

/-- C10: for every string `from`, `f(from)` terminates (the embedding is a total function)
and appends exactly the three lines `from : 0`, `from : 1`, `from : 2` to standard output, in
that order. -/
theorem Goroutines.f_output (from_ : String) (out : Stdout) :
    Goroutines.f from_ out = out ++ [from_ ++ " : 0", from_ ++ " : 1", from_ ++ " : 2"] := by
  unfold Goroutines.f
  rw [Goroutines.fLoop, if_pos (by decide), Goroutines.fLoop, if_pos (by decide),
    Goroutines.fLoop, if_pos (by decide), Goroutines.fLoop, if_neg (by decide)]
  simp only [Println, Goroutines.line_eq, List.append_assoc, List.singleton_append]
  rfl


/-! ### Runs -/

theorem runWith_append {σ ε : Type} (step : σ → ε → Option σ) (es1 es2 : List ε) (s : σ) :
    runWith step s (es1 ++ es2) = (runWith step s es1).bind (fun s1 => runWith step s1 es2) := by
  induction es1 generalizing s with
  | nil => rfl
  | cons e es ih =>
    simp only [List.cons_append, runWith]
    cases step s e with
    | none => rfl
    | some s1 => exact ih s1

theorem runWith_invariant {σ ε : Type} (step : σ → ε → Option σ) (P : σ → Prop)
    (hstep : ∀ s e s1, P s → step s e = some s1 → P s1) :
    ∀ (es : List ε) (s s1 : σ), P s → runWith step s es = some s1 → P s1 := by
  intro es
  induction es with
  | nil =>
    intro s s1 hP h
    simp only [runWith, Option.some.injEq] at h
    exact h ▸ hP
  | cons e es ih =>
    intro s s1 hP h
    simp only [runWith] at h
    cases hs : step s e with
    | none => simp [hs] at h
    | some s2 =>
      rw [hs] at h
      exact ih s2 s1 (hstep s e s2 hP hs) h

theorem runWith_mono {σ ε : Type} (step1 step2 : σ → ε → Option σ)
    (h12 : ∀ s e s1, step1 s e = some s1 → step2 s e = some s1) :
    ∀ (es : List ε) (s s1 : σ), runWith step1 s es = some s1 → runWith step2 s es = some s1 := by
  intro es
  induction es with
  | nil => intro s s1 h; exact h
  | cons e es ih =>
    intro s s1 h
    simp only [runWith] at h ⊢
    cases hs : step1 s e with
    | none => simp [hs] at h
    | some s2 =>
      rw [hs] at h
      rw [h12 s e s2 hs]
      exact ih s2 s1 h

/-! ### Channels of the rate limiter -/

theorem Chan.sendAll_ok {α : Type} (vs : List α) (c : Chan α) (hc : c.closed = false)
    (hroom : c.buf.length + vs.length ≤ c.cap) :
    c.sendAll vs = Op.done { c with buf := c.buf ++ vs } := by
  induction vs generalizing c with
  | nil => simp [Chan.sendAll]
  | cons v vs ih =>
    have hlt : c.buf.length < c.cap := by simp at hroom; omega
    simp only [Chan.sendAll, Chan.send, hc, hlt, if_true, Bool.false_eq_true, if_false]
    rw [ih]
    · simp
    · rfl
    · simp at hroom ⊢; omega

theorem RateLimiting.mkRequests_eq (n : Nat) :
    RateLimiting.mkRequests n = Op.done { buf := List.range' 1 n, cap := n, closed := true } := by
  unfold RateLimiting.mkRequests
  rw [Chan.sendAll_ok _ _ rfl (by simp [Chan.make])]
  simp [Chan.make, Chan.close]

theorem RateLimiting.mkBurstyLimiter_eq (k now : Nat) :
    RateLimiting.mkBurstyLimiter k now =
      Op.done { buf := List.replicate k now, cap := k, closed := false } := by
  unfold RateLimiting.mkBurstyLimiter
  rw [Chan.sendAll_ok _ _ rfl (by simp [Chan.make])]
  simp [Chan.make]

/-! ### The first loop -/

namespace RateLimiting

theorem plain_init_eq (n : Nat) :
    Plain.init n =
      { requests := { buf := List.range' 1 n, cap := n, closed := true }
        limiter := { buf := [], cap := 1, closed := false }
        ticks := 0
        pc := Pc.atRange
        out := [] } := by
  simp [Plain.init, mkRequests_eq, Op.getD, Chan.make]

theorem plain_inv_init (n d : Nat) : Plain.Inv n d (Plain.init n) := by
  rw [plain_init_eq]
  constructor <;> simp [Pc.held]

theorem served_succ (m : Nat) (time : Nat → Nat) :
    served (m + 1) time = served m time ++ [(m + 1, time (m + 1))] := by
  simp [served, List.range'_1_concat, Nat.add_comm]

/-- The request the loop holds is the successor of the number of requests served. -/
theorem held_eq_of_queue {n req : Nat} {out : List (Nat × Nat)} {rest : List Nat}
    (hq : out.map Prod.fst ++ [req] ++ rest = List.range' 1 n) : req = out.length + 1 := by
  have h1 : (out.map Prod.fst ++ [req] ++ rest)[out.length]? = some req := by
    rw [List.append_assoc, List.getElem?_append_right (by simp)]
    simp
  rw [hq] at h1
  rw [List.getElem?_range'] at h1
  · simp at h1; omega
  · by_contra hlt
    rw [List.getElem?_eq_none (by simp; omega)] at h1
    exact absurd h1 (by simp)

theorem plain_inv_step (n d : Nat) (s : Plain) (e : Event) (s1 : Plain)
    (h : Plain.Inv n d s) (hs : Plain.step d s e = some s1) : Plain.Inv n d s1 := by
  obtain ⟨⟨rb, rc, rcl⟩, ⟨lb, lc, lcl⟩, t, pc, out⟩ := s
  obtain ⟨hq, hrc, hdr, hlc, hlo, hll, hp, hla⟩ := h
  simp only at hq hrc hdr hlc hlo hll hp hla
  subst hrc hlc hlo
  cases e with
  | tick =>
    simp only [Plain.step, Option.some.injEq] at hs
    subst hs
    rcases lb with _ | ⟨x, lb⟩
    · constructor <;> simp_all [Chan.trySend, Chan.send]
    · have hlb : lb = [] := by
        simp at hll
        exact hll
      subst hlb
      constructor <;> simp_all [Chan.trySend, Chan.send]
      omega
  | feedRecv => simp [Plain.step] at hs
  | feedSend => simp [Plain.step] at hs
  | next =>
    cases pc with
    | atRange =>
      rcases rb with _ | ⟨r, rb⟩
      · simp [Plain.step, Chan.recv] at hs
        subst hs
        constructor <;> simp_all [Pc.held]
      · simp [Plain.step, Chan.recv] at hs
        subst hs
        constructor <;> simp_all [Pc.held]
    | atLimiter req => simp [Plain.step] at hs
    | finished => simp [Plain.step] at hs
  | acquire =>
    cases pc with
    | atRange => simp [Plain.step] at hs
    | finished => simp [Plain.step] at hs
    | atLimiter req =>
      rcases lb with _ | ⟨x, lb⟩
      · simp [Plain.step, Chan.recv] at hs
      · have hlb : lb = [] := by
          simp at hll
          exact hll
        subst hlb
        simp [Plain.step, Chan.recv] at hs
        subst hs
        constructor
        · simpa [Pc.held] using hq
        · rfl
        · simp
        · rfl
        · rfl
        · simp
        · simp at hp ⊢; omega
        · intro e he
          simp at he
          rcases he with he | he
          · exact hla e he
          · subst he
            have hreq := held_eq_of_queue (by simpa [Pc.held] using hq)
            simp at hp ⊢
            exact Nat.mul_le_mul_right d (by omega)

theorem plain_ustep_step (d : Nat) (s : Plain) (e : Event) (s1 : Plain)
    (hs : Plain.ustep d s e = some s1) : Plain.step d s e = some s1 := by
  unfold Plain.ustep at hs
  split at hs
  · exact absurd hs (by simp)
  · exact hs

/-- From the head of the loop with an empty limiter, an urgent run ends the loop. -/
theorem plain_finish_from (d rc : Nat) (rb : List Nat) :
    ∀ (t : Nat) (out : List (Nat × Nat)),
      ∃ es s1, runWith (Plain.ustep d)
        { requests := { buf := rb, cap := rc, closed := true }
          limiter := { buf := [], cap := 1, closed := false }
          ticks := t, pc := Pc.atRange, out := out } es = some s1 ∧ s1.pc = Pc.finished := by
  induction rb with
  | nil =>
    intro t out
    exact ⟨[Event.next], _, rfl, rfl⟩
  | cons r rb ih =>
    intro t out
    obtain ⟨es, s1, hrun, hfin⟩ := ih (t + 1) (out ++ [(r, (t + 1) * d)])
    refine ⟨[Event.next, Event.tick, Event.acquire] ++ es, s1, ?_, hfin⟩
    rw [runWith_append]
    simp [runWith, Plain.ustep, Plain.step, Plain.idle, Chan.recv, Chan.trySend, Chan.send]
    exact hrun

theorem plain_count_acquire (d : Nat) :
    ∀ (es : List Event) (s s1 : Plain), runWith (Plain.step d) s es = some s1 →
      s1.out.length = s.out.length + es.count Event.acquire := by
  intro es
  induction es with
  | nil =>
    intro s s1 h
    simp [runWith] at h
    subst h
    simp
  | cons e es ih =>
    intro s s1 h
    simp only [runWith] at h
    cases hs : Plain.step d s e with
    | none => simp [hs] at h
    | some s2 =>
      rw [hs] at h
      rw [ih s2 s1 h]
      cases e with
      | tick => simp [Plain.step] at hs; subst hs; simp
      | feedRecv => simp [Plain.step] at hs
      | feedSend => simp [Plain.step] at hs
      | next =>
        simp only [Plain.step] at hs
        split at hs
        · split at hs <;> simp at hs <;> subst hs <;> simp
        · simp at hs
      | acquire =>
        simp only [Plain.step] at hs
        split at hs
        · split at hs
          · simp at hs; subst hs; simp; omega
          · simp at hs
        · simp at hs

end RateLimiting

/-! ### The second loop -/

namespace RateLimiting

theorem bursty_init_eq (k n : Nat) :
    Bursty.init k n =
      { burstyRequests := { buf := List.range' 1 n, cap := n, closed := true }
        burstyLimiter := { buf := List.replicate k 0, cap := k, closed := false }
        tickChan := { buf := [], cap := 1, closed := false }
        feeder := Feeder.atRange
        ticks := 0
        pc := Pc.atRange
        out := [] } := by
  simp [Bursty.init, mkRequests_eq, mkBurstyLimiter_eq, Op.getD, Chan.make]

theorem bursty_inv_init (k n d : Nat) : Bursty.Inv k n d (Bursty.init k n) := by
  rw [bursty_init_eq]
  constructor <;> simp [Pc.held, Feeder.held, Bursty.available]

theorem bursty_inv_step (k n d : Nat) (s : Bursty) (e : Event) (s1 : Bursty)
    (h : Bursty.Inv k n d s) (hs : Bursty.step d s e = some s1) : Bursty.Inv k n d s1 := by
  obtain ⟨⟨rb, rc, rcl⟩, ⟨lb, lc, lcl⟩, ⟨tb, tc, tcl⟩, fd, t, pc, out⟩ := s
  obtain ⟨hq, hrc, hdr, hlc, hlo, hll, htc, hto, htl, hal, hp, hla⟩ := h
  simp only [Bursty.available] at hq hrc hdr hlc hlo hll htc hto htl hal hp hla
  subst hrc hlc hlo htc hto
  cases e with
  | tick =>
    simp only [Bursty.step, Option.some.injEq] at hs
    subst hs
    rcases tb with _ | ⟨x, tb⟩
    · constructor <;> simp_all [Chan.trySend, Chan.send, Bursty.available]
      omega
    · have htb : tb = [] := by
        simp at htl
        exact htl
      subst htb
      constructor <;> simp_all [Chan.trySend, Chan.send, Bursty.available]
      omega
  | feedRecv =>
    cases fd with
    | atSend x => simp [Bursty.step] at hs
    | exited => simp [Bursty.step] at hs
    | atRange =>
      rcases tb with _ | ⟨x, tb⟩
      · simp [Bursty.step, Chan.recv] at hs
      · simp [Bursty.step, Chan.recv] at hs
        subst hs
        constructor <;> simp_all [Bursty.available, Feeder.held]
  | feedSend =>
    cases fd with
    | atRange => simp [Bursty.step] at hs
    | exited => simp [Bursty.step] at hs
    | atSend x =>
      by_cases hlt : lb.length < lc
      · simp [Bursty.step, Chan.send, hlt] at hs
        subst hs
        constructor <;> simp_all [Bursty.available, Feeder.held]
        omega
      · simp [Bursty.step, Chan.send, hlt] at hs
  | next =>
    cases pc with
    | atRange =>
      rcases rb with _ | ⟨r, rb⟩
      · simp [Bursty.step, Chan.recv] at hs
        subst hs
        constructor <;> simp_all [Pc.held, Bursty.available]
      · simp [Bursty.step, Chan.recv] at hs
        subst hs
        constructor <;> simp_all [Pc.held, Bursty.available]
    | atLimiter req => simp [Bursty.step] at hs
    | finished => simp [Bursty.step] at hs
  | acquire =>
    cases pc with
    | atRange => simp [Bursty.step] at hs
    | finished => simp [Bursty.step] at hs
    | atLimiter req =>
      rcases lb with _ | ⟨x, lb⟩
      · simp [Bursty.step, Chan.recv] at hs
      · simp [Bursty.step, Chan.recv] at hs
        subst hs
        have hreq := held_eq_of_queue (by simpa [Pc.held] using hq)
        constructor
        · simpa [Pc.held] using hq
        · rfl
        · simp
        · rfl
        · rfl
        · simp at hll ⊢; omega
        · rfl
        · rfl
        · exact htl
        · exact hal
        · simp [Bursty.available] at hp ⊢; omega
        · intro e he
          simp at he
          rcases he with he | he
          · exact hla e he
          · subst he
            simp at hp ⊢
            exact Nat.mul_le_mul_right d (by omega)

theorem bursty_ustep_step (d : Nat) (s : Bursty) (e : Event) (s1 : Bursty)
    (hs : Bursty.ustep d s e = some s1) : Bursty.step d s e = some s1 := by
  unfold Bursty.ustep at hs
  split at hs
  · exact absurd hs (by simp)
  · exact hs

theorem bursty_uinv_init (k n d : Nat) : Bursty.UInv k n d (Bursty.init k n) := by
  refine ⟨bursty_inv_init k n d, ?_, ?_, ?_⟩
  · rw [bursty_init_eq]; simp [Bursty.available, Feeder.held]
  · rw [bursty_init_eq]; simp
  · rw [bursty_init_eq]; simp [served]

theorem bursty_uinv_step (k n d : Nat) (hk : 1 ≤ k) (s : Bursty) (e : Event) (s1 : Bursty)
    (h : Bursty.UInv k n d s) (hs : Bursty.ustep d s e = some s1) : Bursty.UInv k n d s1 := by
  have hbase := bursty_inv_step k n d s e s1 h.base (bursty_ustep_step d s e s1 hs)
  suffices hrest : (s1.pc ≠ Pc.finished → s1.out.length + s1.available = k + s1.ticks) ∧
      (s1.pc ≠ Pc.finished → 1 ≤ s1.ticks → k + s1.ticks ≤ s1.out.length + 1) ∧
      s1.out = served s1.out.length (fun j => (j - k) * d) from
    ⟨hbase, hrest.1, hrest.2.1, hrest.2.2⟩
  clear hbase
  obtain ⟨⟨hq, hrc, hdr, hlc, hlo, hll, htc, hto, htl, hal, hp, hla⟩, hex, hca, hon⟩ := h
  obtain ⟨⟨rb, rc, rcl⟩, ⟨lb, lc, lcl⟩, ⟨tb, tc, tcl⟩, fd, t, pc, out⟩ := s
  simp only [Bursty.available] at hq hrc hdr hlc hlo hll htc hto htl hal hp hla hex hca hon
  subst hrc hlc hlo htc hto
  unfold Bursty.ustep at hs
  split at hs
  · exact absurd hs (by simp)
  rename_i hidle
  cases e with
  | tick =>
    simp only [Bursty.step, Option.some.injEq] at hs
    subst hs
    cases pc with
    | atRange =>
      rcases rb with _ | ⟨r, rb⟩ <;> simp [Bursty.idle, Bursty.step, Chan.recv] at hidle
    | finished => exact ⟨by simp, by simp, hon⟩
    | atLimiter req =>
      rcases lb with _ | ⟨x, lb⟩
      · cases fd with
        | exited => exact absurd rfl hal
        | atSend x =>
          have hlt : 0 < lc := hk
          simp [Bursty.idle, Bursty.step, Chan.recv, Chan.send, hlt] at hidle
        | atRange =>
          rcases tb with _ | ⟨y, tb⟩
          · simp [Feeder.held] at hex
            refine ⟨?_, ?_, hon⟩
            · simp [Bursty.available, Chan.trySend, Chan.send, Feeder.held]
              omega
            · simp
              omega
          · simp [Bursty.idle, Bursty.step, Chan.recv] at hidle
      · simp [Bursty.idle, Bursty.step, Chan.recv] at hidle
  | feedRecv =>
    cases fd with
    | atSend x => simp [Bursty.step] at hs
    | exited => simp [Bursty.step] at hs
    | atRange =>
      rcases tb with _ | ⟨x, tb⟩
      · simp [Bursty.step, Chan.recv] at hs
      · simp [Bursty.step, Chan.recv] at hs
        subst hs
        refine ⟨?_, hca, hon⟩
        intro hpc
        have := hex hpc
        simp [Bursty.available, Feeder.held] at this ⊢
        omega
  | feedSend =>
    cases fd with
    | atRange => simp [Bursty.step] at hs
    | exited => simp [Bursty.step] at hs
    | atSend x =>
      by_cases hlt : lb.length < lc
      · simp [Bursty.step, Chan.send, hlt] at hs
        subst hs
        refine ⟨?_, hca, hon⟩
        intro hpc
        have := hex hpc
        simp [Bursty.available, Feeder.held] at this ⊢
        omega
      · simp [Bursty.step, Chan.send, hlt] at hs
  | next =>
    cases pc with
    | atRange =>
      rcases rb with _ | ⟨r, rb⟩
      · simp [Bursty.step, Chan.recv] at hs
        subst hs
        exact ⟨by simp, by simp, hon⟩
      · simp [Bursty.step, Chan.recv] at hs
        subst hs
        exact ⟨fun _ => hex (by simp), fun _ => hca (by simp), hon⟩
    | atLimiter req => simp [Bursty.step] at hs
    | finished => simp [Bursty.step] at hs
  | acquire =>
    cases pc with
    | atRange => simp [Bursty.step] at hs
    | finished => simp [Bursty.step] at hs
    | atLimiter req =>
      rcases lb with _ | ⟨x, lb⟩
      · simp [Bursty.step, Chan.recv] at hs
      · simp [Bursty.step, Chan.recv] at hs
        subst hs
        have hreq := held_eq_of_queue (by simpa [Pc.held] using hq)
        have hex1 := hex (by simp)
        have hca1 := hca (by simp)
        simp at hex1
        refine ⟨?_, ?_, ?_⟩
        · intro _
          simp [Bursty.available]
          omega
        · intro _ ht
          have := hca1 ht
          simp
          omega
        · simp only [List.length_append, List.length_singleton]
          rw [served_succ, ← hon, hreq]
          have ht : t = out.length + 1 - lc := by
            rcases Nat.eq_zero_or_pos t with h0 | hpos
            · omega
            · have := hca1 hpos
              omega
          rw [ht]

theorem bursty_finished_length (k n d : Nat) (s : Bursty) (h : Bursty.Inv k n d s)
    (hpc : s.pc = Pc.finished) : s.out.length = n := by
  have hq := h.queue
  rw [h.drained hpc, hpc] at hq
  have := congrArg List.length hq
  simpa [Pc.held] using this

/-- From the head of the loop, with the feeding goroutine at its `range` and no tick
waiting, an urgent run ends the loop. -/
theorem bursty_finish_from (d rc k : Nat) (hk : 1 ≤ k) (rb : List Nat) :
    ∀ (lb : List Nat) (t : Nat) (out : List (Nat × Nat)),
      ∃ es s1, runWith (Bursty.ustep d)
        { burstyRequests := { buf := rb, cap := rc, closed := true }
          burstyLimiter := { buf := lb, cap := k, closed := false }
          tickChan := { buf := [], cap := 1, closed := false }
          feeder := Feeder.atRange
          ticks := t, pc := Pc.atRange, out := out } es = some s1 ∧ s1.pc = Pc.finished := by
  have hk0 : 0 < k := hk
  induction rb with
  | nil =>
    intro lb t out
    exact ⟨[Event.next], _, rfl, rfl⟩
  | cons r rb ih =>
    intro lb t out
    rcases lb with _ | ⟨x, lb⟩
    · obtain ⟨es, s1, hrun, hfin⟩ := ih [] (t + 1) (out ++ [(r, (t + 1) * d)])
      refine ⟨[Event.next, Event.tick, Event.feedRecv, Event.feedSend, Event.acquire] ++ es,
        s1, ?_, hfin⟩
      rw [runWith_append]
      simp [runWith, Bursty.ustep, Bursty.step, Bursty.idle, Chan.recv, Chan.trySend,
        Chan.send, hk0]
      exact hrun
    · obtain ⟨es, s1, hrun, hfin⟩ := ih lb t (out ++ [(r, t * d)])
      refine ⟨[Event.next, Event.acquire] ++ es, s1, ?_, hfin⟩
      rw [runWith_append]
      simp [runWith, Bursty.ustep, Bursty.step, Chan.recv]
      exact hrun

theorem bursty_count_acquire (d : Nat) :
    ∀ (es : List Event) (s s1 : Bursty), runWith (Bursty.step d) s es = some s1 →
      s1.out.length = s.out.length + es.count Event.acquire := by
  intro es
  induction es with
  | nil =>
    intro s s1 h
    simp [runWith] at h
    subst h
    simp
  | cons e es ih =>
    intro s s1 h
    simp only [runWith] at h
    cases hs : Bursty.step d s e with
    | none => simp [hs] at h
    | some s2 =>
      rw [hs] at h
      rw [ih s2 s1 h]
      cases e with
      | tick => simp [Bursty.step] at hs; subst hs; simp
      | feedRecv =>
        simp only [Bursty.step] at hs
        split at hs
        · split at hs <;> simp at hs <;> subst hs <;> simp
        · simp at hs
      | feedSend =>
        simp only [Bursty.step] at hs
        split at hs
        · split at hs
          · simp at hs; subst hs; simp
          · simp at hs
        · simp at hs
      | next =>
        simp only [Bursty.step] at hs
        split at hs
        · split at hs <;> simp at hs <;> subst hs <;> simp
        · simp at hs
      | acquire =>
        simp only [Bursty.step] at hs
        split at hs
        · split at hs
          · simp at hs; subst hs; simp; omega
          · simp at hs
        · simp at hs

theorem plain_reach_inv (n d : Nat) (es : List Event) (s : Plain)
    (h : runWith (Plain.step d) (Plain.init n) es = some s) : Plain.Inv n d s :=
  runWith_invariant (Plain.step d) (Plain.Inv n d) (plain_inv_step n d) es _ s
    (plain_inv_init n d) h

theorem plain_urgent_finish (n d : Nat) :
    ∃ es s, runWith (Plain.ustep d) (Plain.init n) es = some s ∧ s.pc = Pc.finished := by
  rw [plain_init_eq]
  exact plain_finish_from d n (List.range' 1 n) 0 []

theorem bursty_reach_inv (k n d : Nat) (es : List Event) (s : Bursty)
    (h : runWith (Bursty.step d) (Bursty.init k n) es = some s) : Bursty.Inv k n d s :=
  runWith_invariant (Bursty.step d) (Bursty.Inv k n d) (bursty_inv_step k n d) es _ s
    (bursty_inv_init k n d) h

theorem bursty_reach_uinv (k n d : Nat) (hk : 1 ≤ k) (es : List Event) (s : Bursty)
    (h : runWith (Bursty.ustep d) (Bursty.init k n) es = some s) : Bursty.UInv k n d s :=
  runWith_invariant (Bursty.ustep d) (Bursty.UInv k n d) (bursty_uinv_step k n d hk) es _ s
    (bursty_uinv_init k n d) h

theorem bursty_urgent_finish (k n d : Nat) (hk : 1 ≤ k) :
    ∃ es s, runWith (Bursty.ustep d) (Bursty.init k n) es = some s ∧ s.pc = Pc.finished := by
  rw [bursty_init_eq]
  exact bursty_finish_from d n k hk (List.range' 1 n) (List.replicate k 0) 0 []

theorem served_getElem? (m : Nat) (time : Nat → Nat) (i : Nat) (e : Nat × Nat)
    (h : (served m time)[i]? = some e) : e = (i + 1, time (i + 1)) := by
  unfold served at h
  rw [List.getElem?_map] at h
  by_cases hi : i < m
  · rw [List.getElem?_range' _ _ hi] at h
    simp at h
    rw [← h, Nat.add_comm]
  · rw [List.getElem?_eq_none (by simp; omega)] at h
    simp at h

/-- C1: in `main` of rate-limiting, for the plain loop and for the bursty loop alike, the
work queue (a buffered channel filled with 1..5 and then closed) is consumed exactly once and
in enqueue order.  Whatever the schedule of ticks and goroutine steps, the requests served so
far, the request in hand and the requests still queued make up 1, 2, 3, 4, 5 in that order,
there is one completed limiter receive per served request, and a loop that has ended has
served exactly 1, 2, 3, 4, 5 and left the queue empty; and each loop does end on some
schedule. -/
theorem requests_served_in_order :
    mkRequests 5 = Op.done { buf := [1, 2, 3, 4, 5], cap := 5, closed := true } ∧
    (∀ (es : List Event) (s : Plain),
      runWith (Plain.step 200) (Plain.init 5) es = some s →
        s.out.map Prod.fst ++ s.pc.held ++ s.requests.buf = [1, 2, 3, 4, 5] ∧
        es.count Event.acquire = s.out.length ∧
        (s.pc = Pc.finished → s.out.map Prod.fst = [1, 2, 3, 4, 5] ∧ s.requests.buf = [])) ∧
    (∀ (es : List Event) (s : Bursty),
      runWith (Bursty.step 200) (Bursty.init 3 5) es = some s →
        s.out.map Prod.fst ++ s.pc.held ++ s.burstyRequests.buf = [1, 2, 3, 4, 5] ∧
        es.count Event.acquire = s.out.length ∧
        (s.pc = Pc.finished →
          s.out.map Prod.fst = [1, 2, 3, 4, 5] ∧ s.burstyRequests.buf = [])) ∧
    (∃ es s, runWith (Plain.step 200) (Plain.init 5) es = some s ∧ s.pc = Pc.finished) ∧
    (∃ es s, runWith (Bursty.step 200) (Bursty.init 3 5) es = some s ∧
      s.pc = Pc.finished) := by
  refine ⟨by decide, ?_, ?_, ?_, ?_⟩
  · intro es s h
    have hinv := plain_reach_inv 5 200 es s h
    have hq := hinv.queue
    have hcount := plain_count_acquire 200 es _ s h
    refine ⟨hq, ?_, ?_⟩
    · rw [hcount, plain_init_eq]; simp
    · intro hfin
      have hd := hinv.drained hfin
      rw [hd, hfin] at hq
      exact ⟨by simpa [Pc.held] using hq, hd⟩
  · intro es s h
    have hinv := bursty_reach_inv 3 5 200 es s h
    have hq := hinv.queue
    have hcount := bursty_count_acquire 200 es _ s h
    refine ⟨hq, ?_, ?_⟩
    · rw [hcount, bursty_init_eq]; simp
    · intro hfin
      have hd := hinv.drained hfin
      rw [hd, hfin] at hq
      exact ⟨by simpa [Pc.held] using hq, hd⟩
  · obtain ⟨es, s, h, hfin⟩ := plain_urgent_finish 5 200
    exact ⟨es, s, runWith_mono _ _ (plain_ustep_step 200) es _ s h, hfin⟩
  · obtain ⟨es, s, h, hfin⟩ := bursty_urgent_finish 3 5 200 (by decide)
    exact ⟨es, s, runWith_mono _ _ (bursty_ustep_step 200) es _ s h, hfin⟩

/-- The runs of C1 at the urgent schedules of the two loops. -/
theorem requests_served_in_order_witness :
    ∃ s1 s2,
      runWith (Plain.step 200) (Plain.init 5) Plain.mainSchedule = some s1 ∧
      s1.pc = Pc.finished ∧ s1.out.map Prod.fst = [1, 2, 3, 4, 5] ∧
      runWith (Bursty.step 200) (Bursty.init 3 5) Bursty.mainSchedule = some s2 ∧
      s2.pc = Pc.finished ∧ s2.out.map Prod.fst = [1, 2, 3, 4, 5] :=
  ⟨_, _, rfl, rfl,
    ((requests_served_in_order.2.1 Plain.mainSchedule _ rfl).2.2 rfl).1, rfl, rfl,
    ((requests_served_in_order.2.2.1 Bursty.mainSchedule _ rfl).2.2 rfl).1⟩

/-- C2: permit-buffer invariant.  The bursty limiter starts with `k` buffered permits in a
buffer of capacity `k` (3 in the source), and in every state reachable by tick deposits,
goroutine steps and acquires, in any order, the number of buffered permits is at most the
capacity. -/
theorem Bursty.buffer_within_capacity (k n d : Nat) (es : List Event) (s : Bursty)
    (h : runWith (Bursty.step d) (Bursty.init k n) es = some s) :
    (Bursty.init k n).burstyLimiter.buf.length = k ∧ s.burstyLimiter.cap = k ∧
      0 ≤ s.burstyLimiter.buf.length ∧ s.burstyLimiter.buf.length ≤ k := by
  have hinv := bursty_reach_inv k n d es s h
  refine ⟨?_, hinv.limCap, Nat.zero_le _, hinv.limLen⟩
  rw [bursty_init_eq]
  simp

/-- The bound of C2 on a run in which ticks arrive while the buffer is full. -/
theorem Bursty.buffer_within_capacity_witness :
    ∃ s, runWith (Bursty.step 200) (Bursty.init 3 5)
        [Event.tick, Event.feedRecv, Event.tick, Event.tick, Event.next, Event.acquire,
          Event.feedSend] = some s ∧
      s.burstyLimiter.buf = [0, 0, 200] ∧
      s.burstyLimiter.cap = 3 ∧ s.burstyLimiter.buf.length ≤ 3 := by
  refine ⟨_, rfl, by decide, ?_⟩
  have h := Bursty.buffer_within_capacity 3 5 200
    [Event.tick, Event.feedRecv, Event.tick, Event.tick, Event.next, Event.acquire,
      Event.feedSend] _ rfl
  exact ⟨h.2.1, h.2.2.2⟩

/-- From the head of the loop, the requests that find a permit in the buffer are served
without any tick. -/
theorem Bursty.burst_from (d rc k : Nat) (lb : List Nat) :
    ∀ (rb : List Nat) (t : Nat) (out : List (Nat × Nat)),
      ∃ es s1, Event.tick ∉ es ∧ runWith (Bursty.ustep d)
        { burstyRequests := { buf := rb, cap := rc, closed := true }
          burstyLimiter := { buf := lb, cap := k, closed := false }
          tickChan := { buf := [], cap := 1, closed := false }
          feeder := Feeder.atRange
          ticks := t, pc := Pc.atRange, out := out } es = some s1 ∧
        s1.out.length = out.length + min lb.length rb.length := by
  induction lb with
  | nil =>
    intro rb t out
    exact ⟨[], _, by simp, rfl, by simp⟩
  | cons x lb ih =>
    intro rb t out
    rcases rb with _ | ⟨r, rb⟩
    · exact ⟨[], _, by simp, rfl, by simp⟩
    · obtain ⟨es, s1, hno, hrun, hlen⟩ := ih rb t (out ++ [(r, t * d)])
      refine ⟨[Event.next, Event.acquire] ++ es, s1, by simpa using hno, ?_, ?_⟩
      · rw [runWith_append]
        simp [runWith, Bursty.ustep, Bursty.step, Chan.recv]
        exact hrun
      · rw [hlen]
        simp
        omega

/-- C3: the code at the schedule on which the claim fails.  The limiter starts full (3
permits); for three intervals the main goroutine takes no step.  The claim, like the comments
of lines 31-33 and 41-42 of the source (bursts of up to 3 events, a new value up to the limit
of 3), has the surplus permit discarded and at most 3 acquires complete without a further
tick.  The code does otherwise: the goroutine of lines 43-47 has taken the first tick and
waits at the blocking send of line 45, holding it; the second tick waits in the channel of
the ticker; and then five acquires complete with no further tick. -/
theorem Bursty.full_buffer_retains_permits :
    ∃ s1 s2,
      runWith (Bursty.step 200) (Bursty.init 3 5) Bursty.idleSchedule = some s1 ∧
      s1.burstyLimiter.buf.length = 3 ∧ s1.ticks = 3 ∧ s1.out = [] ∧
      s1.feeder = Feeder.atSend 200 ∧ Bursty.step 200 s1 Event.feedSend = none ∧
      s1.tickChan.buf = [400] ∧
      runWith (Bursty.step 200) s1 Bursty.burstSchedule = some s2 ∧
      Event.tick ∉ Bursty.burstSchedule ∧ s2.ticks = 3 ∧
      Bursty.burstSchedule.count Event.acquire = 5 ∧
      s2.out = [(1, 600), (2, 600), (3, 600), (4, 600), (5, 600)] ∧
      3 < s2.out.length := by
  refine ⟨_, _, rfl, ?_, ?_, ?_, ?_, ?_, ?_, rfl, ?_, ?_, ?_, ?_, ?_⟩ <;> decide

/-- C4: burst behaviour, in urgent runs (the ticker fires only while no goroutine can
move).  With the bursty limiter filled to its capacity `k ≥ 1` and `n` requests queued, the
loop ends, each request `j` is printed at time `(j - k) * d`, which is 0 for the first
`min k n` requests, served with no tick at all, and one interval more for each later
request, so that from request `k` on the next request follows exactly `d` later; on any
schedule, urgent or not, request `j` is not served before tick `j - k`.  For the values of
the program (`k = 3`, `n = 5`, `d = 200`) the printed times are 0, 0, 0, 200, 400. -/
theorem Bursty.burst_then_paced :
    (∀ k n d : Nat, 1 ≤ k →
      (∃ es s, runWith (Bursty.ustep d) (Bursty.init k n) es = some s ∧
        s.pc = Pc.finished) ∧
      (∃ es s, Event.tick ∉ es ∧ runWith (Bursty.ustep d) (Bursty.init k n) es = some s ∧
        s.out = served (min k n) (fun _ => 0)) ∧
      (∀ es s, runWith (Bursty.ustep d) (Bursty.init k n) es = some s →
        s.out = served s.out.length (fun j => (j - k) * d) ∧
        (s.pc = Pc.finished → s.out = served n (fun j => (j - k) * d)) ∧
        (∀ i a b, s.out[i]? = some a → s.out[i + 1]? = some b → k ≤ a.1 →
          b.2 = a.2 + d)) ∧
      (∀ es s, runWith (Bursty.step d) (Bursty.init k n) es = some s →
        ∀ e ∈ s.out, (e.1 - k) * d ≤ e.2)) ∧
    (∀ es s, runWith (Bursty.ustep 200) (Bursty.init 3 5) es = some s →
      s.pc = Pc.finished → s.out = [(1, 0), (2, 0), (3, 0), (4, 200), (5, 400)]) := by
  have hgen : ∀ (k n d : Nat), 1 ≤ k → ∀ es s,
      runWith (Bursty.ustep d) (Bursty.init k n) es = some s →
        s.out = served s.out.length (fun j => (j - k) * d) ∧
        (s.pc = Pc.finished → s.out = served n (fun j => (j - k) * d)) := by
    intro k n d hk es s h
    have hu := bursty_reach_uinv k n d hk es s h
    refine ⟨hu.onTime, fun hfin => ?_⟩
    have hlen := bursty_finished_length k n d s hu.base hfin
    rw [← hlen]
    exact hu.onTime
  refine ⟨?_, ?_⟩
  · intro k n d hk
    refine ⟨bursty_urgent_finish k n d hk, ?_, ?_, ?_⟩
    · have hb := Bursty.burst_from d n k (List.replicate k 0) (List.range' 1 n) 0 []
      rw [← bursty_init_eq] at hb
      obtain ⟨es, s, hno, hrun, hlen⟩ := hb
      refine ⟨es, s, hno, hrun, ?_⟩
      have hon := (hgen k n d hk es s hrun).1
      simp at hlen
      rw [hon, hlen]
      unfold served
      apply List.map_congr_left
      intro j hj
      simp at hj
      have : j - k = 0 := by omega
      simp [this]
    · intro es s h
      obtain ⟨hon, hfin⟩ := hgen k n d hk es s h
      refine ⟨hon, hfin, ?_⟩
      intro i a b ha hb hka
      rw [hon] at ha hb
      have ea := served_getElem? _ _ i a ha
      have eb := served_getElem? _ _ (i + 1) b hb
      subst ea eb
      simp only at hka ⊢
      have : i + 1 + 1 - k = (i + 1 - k) + 1 := by omega
      rw [this, Nat.add_mul, Nat.one_mul]
    · intro es s h
      exact (bursty_reach_inv k n d es s h).late
  · intro es s h hfin
    rw [((hgen 3 5 200 (by decide) es s h).2 hfin)]
    decide

/-- The times of C4 on the urgent schedule of the program. -/
theorem Bursty.burst_then_paced_witness :
    1 ≤ 3 ∧
    ∃ s, runWith (Bursty.ustep 200) (Bursty.init 3 5) Bursty.mainSchedule = some s ∧
      s.pc = Pc.finished ∧
      s.out = served 5 (fun j => (j - 3) * 200) ∧
      s.out = [(1, 0), (2, 0), (3, 0), (4, 200), (5, 400)] := by
  refine ⟨by decide, _, rfl, rfl, ?_, ?_⟩
  · exact ((Bursty.burst_then_paced.1 3 5 200 (by decide)).2.2.1
      Bursty.mainSchedule _ rfl).2.1 rfl
  · exact Bursty.burst_then_paced.2 Bursty.mainSchedule _ rfl rfl

/-- C8 as stated fails for the closing: once the range loop has drained the closed requests
channel, a second `close` on it is a run-time panic, not a step without effect. -/
theorem Plain.second_close_panics :
    ∃ s, runWith (Plain.step 200) (Plain.init 5) Plain.mainSchedule = some s ∧
      s.pc = Pc.finished ∧
      s.requests = { buf := [], cap := 5, closed := true } ∧
      s.requests.close = Op.panic ∧
      s.requests.close ≠ Op.done s.requests := by
  refine ⟨_, rfl, rfl, ?_, ?_, ?_⟩ <;> decide

/-- C8, amended: once the range loop has drained the work queue (the closed requests
channel), draining it a second time has no additional effect: a receive yields no work item,
a second range loop over it ends at once in the very state the first drain left, and no run
of it serves a request or changes the output or the queue.  A second `close` is not such
a step: it panics. -/
theorem Plain.second_drain (n d : Nat) (es : List Event) (s : Plain)
    (h : runWith (Plain.step d) (Plain.init n) es = some s) (hfin : s.pc = Pc.finished) :
    s.requests.recv = Op.done (none, s.requests) ∧
    Plain.step d { s with pc := Pc.atRange } Event.next = some s ∧
    (∀ es2 s2, runWith (Plain.step d) { s with pc := Pc.atRange } es2 = some s2 →
      Event.acquire ∉ es2 ∧ s2.out = s.out ∧ s2.requests = s.requests) ∧
    s.requests.close = Op.panic := by
  have hinv := plain_reach_inv n d es s h
  have hbuf := hinv.drained hfin
  have hcl := hinv.reqClosed
  have hrecv : s.requests.recv = Op.done (none, s.requests) := by
    simp [Chan.recv, hbuf, hcl]
  refine ⟨hrecv, ?_, ?_, by simp [Chan.close, hcl]⟩
  · simp only [Plain.step, hrecv]
    rw [← hfin]
  · intro es2 s2 h2
    have hQ : s2.out = s.out ∧ s2.requests = s.requests ∧
        (s2.pc = Pc.atRange ∨ s2.pc = Pc.finished) := by
      refine runWith_invariant (Plain.step d)
        (fun x => x.out = s.out ∧ x.requests = s.requests ∧
          (x.pc = Pc.atRange ∨ x.pc = Pc.finished)) ?_ es2 { s with pc := Pc.atRange } s2
        ⟨rfl, rfl, Or.inl rfl⟩ h2
      intro x e x1 ⟨hxo, hxr, hxp⟩ hx
      cases e with
      | tick =>
        simp [Plain.step] at hx
        subst hx
        exact ⟨hxo, hxr, hxp⟩
      | feedRecv => simp [Plain.step] at hx
      | feedSend => simp [Plain.step] at hx
      | next =>
        rcases hxp with hxp | hxp
        · simp only [Plain.step, hxp, hxr, hrecv, Option.some.injEq] at hx
          subst hx
          exact ⟨hxo, rfl, Or.inr rfl⟩
        · simp [Plain.step, hxp] at hx
      | acquire =>
        rcases hxp with hxp | hxp <;> simp [Plain.step, hxp] at hx
    refine ⟨?_, hQ.1, hQ.2.1⟩
    have hc := plain_count_acquire d es2 _ s2 h2
    rw [hQ.1] at hc
    simp only at hc
    intro hmem
    have := List.count_pos_iff.mpr hmem
    omega

/-- The second drain of the amended C8 after the run of the program. -/
theorem Plain.second_drain_witness :
    ∃ s, runWith (Plain.step 200) (Plain.init 5) Plain.mainSchedule = some s ∧
      s.pc = Pc.finished ∧
      s.out = [(1, 200), (2, 400), (3, 600), (4, 800), (5, 1000)] ∧
      s.requests.recv = Op.done (none, s.requests) ∧
      Plain.step 200 { s with pc := Pc.atRange } Event.next = some s := by
  have h := Plain.second_drain 5 200 Plain.mainSchedule _ rfl rfl
  exact ⟨_, rfl, rfl, by decide, h.1, h.2.1⟩

end RateLimiting


/-! ### The select loop -/

namespace Select

theorem update_map (j : Nat) (st : Status) (ts : List Task) :
    (update j st ts).map (fun t => ({ delay := t.wake, msg := t.msg } : Producer)) =
      ts.map (fun t => ({ delay := t.wake, msg := t.msg } : Producer)) := by
  induction ts generalizing j with
  | nil => simp [update]
  | cons t ts ih =>
    cases j with
    | zero => simp [update]
    | succ j => simp [update, ih]

theorem mem_update (j : Nat) (st : Status) (ts : List Task) (x : Task)
    (hx : x ∈ update j st ts) :
    x ∈ ts ∨ ∃ t, ts[j]? = some t ∧ x = { t with status := st } := by
  induction ts generalizing j with
  | nil => simp [update] at hx
  | cons t ts ih =>
    cases j with
    | zero =>
      simp only [update, List.mem_cons] at hx
      rcases hx with hx | hx
      · exact Or.inr ⟨t, by simp, hx⟩
      · exact Or.inl (List.mem_cons_of_mem _ hx)
    | succ j =>
      simp only [update, List.mem_cons] at hx
      rcases hx with hx | hx
      · exact Or.inl (by simp [hx])
      · rcases ih j hx with h | ⟨t1, h1, h2⟩
        · exact Or.inl (List.mem_cons_of_mem _ h)
        · exact Or.inr ⟨t1, by simpa using h1, h2⟩

theorem mem_update_of_ne (j : Nat) (st : Status) (ts : List Task) (x : Task)
    (hx : x ∈ update j st ts) (hne : x.status ≠ st) : x ∈ ts := by
  rcases mem_update j st ts x hx with h | ⟨t, _, h⟩
  · exact h
  · exact absurd (by rw [h]) hne

theorem update_mem (j : Nat) (st : Status) (ts : List Task) (t : Task)
    (ht : ts[j]? = some t) : ({ t with status := st } : Task) ∈ update j st ts := by
  induction ts generalizing j with
  | nil => simp at ht
  | cons t1 ts ih =>
    cases j with
    | zero =>
      simp at ht
      subst ht
      simp [update]
    | succ j =>
      simp at ht
      simp only [update, List.mem_cons]
      exact Or.inr (ih j ht)

theorem mem_of_getElem? (ts : List Task) (j : Nat) (t : Task) (ht : ts[j]? = some t) :
    t ∈ ts := by
  induction ts generalizing j with
  | nil => simp at ht
  | cons t1 ts ih =>
    cases j with
    | zero =>
      simp at ht
      subst ht
      simp
    | succ j =>
      simp at ht
      exact List.mem_cons_of_mem _ (ih j ht)

theorem getElem?_of_mem (ts : List Task) (t : Task) (ht : t ∈ ts) :
    ∃ j : Nat, ts[j]? = some t := by
  induction ts with
  | nil => simp at ht
  | cons t1 ts ih =>
    simp only [List.mem_cons] at ht
    rcases ht with ht | ht
    · exact ⟨0, by simp [ht]⟩
    · obtain ⟨j, hj⟩ := ih ht
      exact ⟨j + 1, by simpa using hj⟩

theorem reported_update_exited (j : Nat) (ts : List Task) (t : Task)
    (ht : ts[j]? = some t) (hne : t.status ≠ Status.exited) :
    (reported (update j Status.exited ts)).Perm ((line t.msg, t.wake) :: reported ts) := by
  induction ts generalizing j with
  | nil => simp at ht
  | cons t1 ts ih =>
    cases j with
    | zero =>
      simp at ht
      subst ht
      simp [update, reported, hne]
    | succ j =>
      simp at ht
      have h := ih j ht
      simp only [update, reported]
      by_cases h1 : t1.status = Status.exited
      · simp only [h1, if_true]
        exact (List.Perm.cons _ h).trans (List.Perm.swap _ _ _)
      · simp only [h1, if_false]
        exact h

theorem reported_update_sending (j : Nat) (ts : List Task) (t : Task)
    (ht : ts[j]? = some t) (hne : t.status ≠ Status.exited) :
    reported (update j Status.sending ts) = reported ts := by
  induction ts generalizing j with
  | nil => simp at ht
  | cons t1 ts ih =>
    cases j with
    | zero =>
      simp at ht
      subst ht
      simp [update, reported, hne]
    | succ j =>
      simp at ht
      simp only [update, reported, ih j ht]

theorem weight_update (j : Nat) (st : Status) (ts : List Task) (t : Task)
    (ht : ts[j]? = some t) :
    weight (update j st ts) + t.status.weight = weight ts + st.weight := by
  induction ts generalizing j with
  | nil => simp at ht
  | cons t1 ts ih =>
    cases j with
    | zero =>
      simp at ht
      subst ht
      simp only [update, weight]
      omega
    | succ j =>
      simp at ht
      have := ih j ht
      simp only [update, weight]
      omega

theorem reported_length_le (ts : List Task) : (reported ts).length ≤ ts.length := by
  induction ts with
  | nil => simp [reported]
  | cons t ts ih =>
    simp only [reported]
    split <;> simp <;> omega

theorem all_exited_of_length (ts : List Task) (h : (reported ts).length = ts.length) :
    ∀ t ∈ ts, t.status = Status.exited := by
  induction ts with
  | nil => simp
  | cons t ts ih =>
    have hle := reported_length_le ts
    simp only [reported] at h
    by_cases h1 : t.status = Status.exited
    · simp only [h1, if_true, List.length_cons] at h
      intro x hx
      simp only [List.mem_cons] at hx
      rcases hx with hx | hx
      · rw [hx]; exact h1
      · exact ih (by omega) x hx
    · simp only [h1, if_false, List.length_cons] at h
      omega

theorem reported_of_all_exited (ts : List Task) (h : ∀ t ∈ ts, t.status = Status.exited) :
    reported ts = ts.map (fun t => (line t.msg, t.wake)) := by
  induction ts with
  | nil => rfl
  | cons t ts ih =>
    have h1 : t.status = Status.exited := h t (by simp)
    simp only [reported, h1, if_true, List.map_cons]
    rw [ih (fun x hx => h x (List.mem_cons_of_mem _ hx))]

theorem mem_reported (ts : List Task) (e : String × Nat) (he : e ∈ reported ts) :
    ∃ t ∈ ts, t.status = Status.exited ∧ e = (line t.msg, t.wake) := by
  induction ts with
  | nil => simp [reported] at he
  | cons t ts ih =>
    simp only [reported] at he
    by_cases h1 : t.status = Status.exited
    · simp only [h1, if_true, List.mem_cons] at he
      rcases he with he | he
      · exact ⟨t, by simp, h1, he⟩
      · obtain ⟨x, hx, hx1, hx2⟩ := ih he
        exact ⟨x, List.mem_cons_of_mem _ hx, hx1, hx2⟩
    · simp only [h1, if_false] at he
      obtain ⟨x, hx, hx1, hx2⟩ := ih he
      exact ⟨x, List.mem_cons_of_mem _ hx, hx1, hx2⟩

theorem nextWake_mem (ts : List Task) (w : Nat) (h : nextWake ts = some w) :
    ∃ t ∈ ts, t.status = Status.sleeping ∧ t.wake = w := by
  induction ts generalizing w with
  | nil => simp [nextWake] at h
  | cons t ts ih =>
    simp only [nextWake] at h
    by_cases h1 : t.status = Status.sleeping
    · simp only [h1, if_true] at h
      cases h2 : nextWake ts with
      | none =>
        simp [h2] at h
        exact ⟨t, by simp, h1, h⟩
      | some w1 =>
        simp [h2] at h
        obtain ⟨x, hx, hx1, hx2⟩ := ih w1 h2
        rcases Nat.le_total t.wake w1 with hle | hle
        · exact ⟨t, by simp, h1, by omega⟩
        · exact ⟨x, List.mem_cons_of_mem _ hx, hx1, by omega⟩
    · simp only [h1, if_false] at h
      obtain ⟨x, hx, hx1, hx2⟩ := ih w h
      exact ⟨x, List.mem_cons_of_mem _ hx, hx1, hx2⟩

theorem nextWake_some (ts : List Task) (t : Task) (ht : t ∈ ts)
    (hs : t.status = Status.sleeping) : ∃ w, nextWake ts = some w := by
  induction ts with
  | nil => simp at ht
  | cons t1 ts ih =>
    simp only [nextWake]
    by_cases h1 : t1.status = Status.sleeping
    · simp only [h1, if_true]
      cases nextWake ts with
      | none => exact ⟨_, rfl⟩
      | some w1 => exact ⟨_, rfl⟩
    · simp only [h1, if_false]
      simp only [List.mem_cons] at ht
      rcases ht with ht | ht
      · exact absurd (ht ▸ hs) h1
      · exact ih ht

theorem nextWake_le (ts : List Task) (w : Nat) (h : nextWake ts = some w) :
    ∀ t ∈ ts, t.status = Status.sleeping → w ≤ t.wake := by
  induction ts generalizing w with
  | nil => simp
  | cons t ts ih =>
    simp only [nextWake] at h
    intro x hx hxs
    simp only [List.mem_cons] at hx
    by_cases h1 : t.status = Status.sleeping
    · simp only [h1, if_true] at h
      cases h2 : nextWake ts with
      | none =>
        simp [h2] at h
        rcases hx with hx | hx
        · rw [hx]; omega
        · obtain ⟨w2, hw2⟩ := nextWake_some ts x hx hxs
          rw [h2] at hw2
          exact absurd hw2 (by simp)
      | some w1 =>
        simp [h2] at h
        rcases hx with hx | hx
        · rw [hx]; omega
        · have := ih w1 h2 x hx hxs
          omega
    · simp only [h1, if_false] at h
      rcases hx with hx | hx
      · exact absurd (hx ▸ hxs) h1
      · exact ih w h x hx hxs

theorem canMove_false (s : State) (h : canMove s = false) :
    ∀ t ∈ s.tasks, (t.status = Status.sleeping → s.now < t.wake) ∧
      t.status ≠ Status.sending := by
  intro t ht
  simp only [canMove, List.any_eq_false] at h
  have := h t ht
  simp at this
  exact ⟨this.1, this.2⟩

theorem reported_init (ps : List Producer) :
    reported
      (ps.map (fun p => ({ wake := p.delay, msg := p.msg, status := Status.sleeping } : Task)))
      = [] := by
  induction ps with
  | nil => rfl
  | cons p ps ih => simp [reported, ih]

theorem select_inv_init (ps : List Producer) : Inv ps (init ps) := by
  constructor
  · simp [init, Function.comp_def]
  · rfl
  · rfl
  · intro t _ _
    exact Nat.zero_le _
  · intro t ht hs
    simp [init] at ht
    obtain ⟨p, _, hp⟩ := ht
    rw [← hp] at hs
    simp at hs
  · intro t ht hs
    simp [init] at ht
    obtain ⟨p, _, hp⟩ := ht
    rw [← hp] at hs
    simp at hs
  · simp [init, reported_init]
  · exact Or.inl rfl

theorem select_inv_step (ps : List Producer) (s : State) (e : Event) (s1 : State)
    (h : Inv ps s) (hs : step s e = some s1) : Inv ps s1 := by
  obtain ⟨hshape, hbound, hcount, hsl, hsn, hex, hperm, hclock⟩ := h
  unfold step at hs
  split at hs
  · exact absurd hs (by simp)
  cases e with
  | wake j =>
    simp only at hs
    cases ht : s.tasks[j]? with
    | none => simp [ht] at hs
    | some t =>
      simp only [ht] at hs
      split at hs
      · rename_i hcond
        simp only [Option.some.injEq] at hs
        subst hs
        have htm := mem_of_getElem? s.tasks j t ht
        have hnow : t.wake = s.now := Nat.le_antisymm hcond.2 (hsl t htm hcond.1)
        have hne : t.status ≠ Status.exited := by rw [hcond.1]; simp
        constructor
        · simpa [update_map] using hshape
        · exact hbound
        · exact hcount
        · intro x hx hxs
          exact hsl x (mem_update_of_ne j _ s.tasks x hx (by rw [hxs]; simp)) hxs
        · intro x hx hxs
          rcases mem_update j _ s.tasks x hx with hm | ⟨t1, h1, h2⟩
          · exact hsn x hm hxs
          · rw [ht] at h1
            simp only [Option.some.injEq] at h1
            subst h1
            rw [h2]
            exact hnow
        · intro x hx hxs
          exact hex x (mem_update_of_ne j _ s.tasks x hx (by rw [hxs]; simp)) hxs
        · simpa [reported_update_sending j s.tasks t ht hne] using hperm
        · exact Or.inr ⟨_, update_mem j Status.sending s.tasks t ht, hnow⟩
      · exact absurd hs (by simp)
  | recv j =>
    simp only at hs
    cases ht : s.tasks[j]? with
    | none => simp [ht] at hs
    | some t =>
      simp only [ht] at hs
      split at hs
      · rename_i hcond
        simp only [Option.some.injEq] at hs
        subst hs
        have htm := mem_of_getElem? s.tasks j t ht
        have hnow : t.wake = s.now := hsn t htm hcond
        have hne : t.status ≠ Status.exited := by rw [hcond]; simp
        constructor
        · simpa [update_map] using hshape
        · exact hbound
        · simp [hcount]
        · intro x hx hxs
          exact hsl x (mem_update_of_ne j _ s.tasks x hx (by rw [hxs]; simp)) hxs
        · intro x hx hxs
          exact hsn x (mem_update_of_ne j _ s.tasks x hx (by rw [hxs]; simp)) hxs
        · intro x hx hxs
          rcases mem_update j _ s.tasks x hx with hm | ⟨t1, h1, h2⟩
          · exact hex x hm hxs
          · rw [ht] at h1
            simp only [Option.some.injEq] at h1
            subst h1
            rw [h2]
            exact Nat.le_of_eq hnow
        · have h1 := reported_update_exited j s.tasks t ht hne
          have h2 : (s.out ++ [(line t.msg, s.now)]).Perm ((line t.msg, t.wake) :: s.out) := by
            rw [hnow]
            exact List.perm_append_singleton _ _
          exact h2.trans ((List.Perm.cons _ hperm).trans h1.symm)
        · exact Or.inr ⟨_, update_mem j Status.exited s.tasks t ht, hnow⟩
      · exact absurd hs (by simp)
  | pass =>
    simp only at hs
    split at hs
    · exact absurd hs (by simp)
    · rename_i hmove
      have hcm := canMove_false s (by simpa using hmove)
      cases hw : nextWake s.tasks with
      | none => simp [hw] at hs
      | some w =>
        simp only [hw, Option.some.injEq] at hs
        subst hs
        obtain ⟨t0, ht0, hs0, hw0⟩ := nextWake_mem s.tasks w hw
        have hle : s.now ≤ w := hw0 ▸ hsl t0 ht0 hs0
        constructor
        · exact hshape
        · exact hbound
        · exact hcount
        · intro x hx hxs
          exact nextWake_le s.tasks w hw x hx hxs
        · intro x hx hxs
          exact absurd hxs (hcm x hx).2
        · intro x hx hxs
          exact Nat.le_trans (hex x hx hxs) hle
        · exact hperm
        · exact Or.inr ⟨t0, ht0, hw0⟩

theorem wakes_eq (ps : List Producer) (s : State) (h : Inv ps s) :
    s.tasks.map Task.wake = ps.map Producer.delay := by
  rw [← h.shape, List.map_map]
  rfl

theorem select_reach_inv (ps : List Producer) (es : List Event) (s : State)
    (h : runWith step (init ps) es = some s) : Inv ps s :=
  runWith_invariant step (Inv ps) (select_inv_step ps) es _ s (select_inv_init ps) h

/-- With distinct delays the lines are printed at strictly increasing times. -/
theorem sorted_step (ps : List Producer) (hnd : (ps.map Producer.delay).Nodup) (s : State)
    (e : Event) (s1 : State)
    (h : Inv ps s ∧ s.out.Pairwise (fun a b => a.2 < b.2)) (hs : step s e = some s1) :
    Inv ps s1 ∧ s1.out.Pairwise (fun a b => a.2 < b.2) := by
  obtain ⟨hinv, hsorted⟩ := h
  refine ⟨select_inv_step ps s e s1 hinv hs, ?_⟩
  have hwakes := wakes_eq ps s hinv
  obtain ⟨hshape, hbound, hcount, hsl, hsn, hex, hperm, hclock⟩ := hinv
  unfold step at hs
  split at hs
  · exact absurd hs (by simp)
  cases e with
  | wake j =>
    simp only at hs
    cases ht : s.tasks[j]? with
    | none => simp [ht] at hs
    | some t =>
      simp only [ht] at hs
      split at hs
      · simp only [Option.some.injEq] at hs
        subst hs
        exact hsorted
      · exact absurd hs (by simp)
  | recv j =>
    simp only at hs
    cases ht : s.tasks[j]? with
    | none => simp [ht] at hs
    | some t =>
      simp only [ht] at hs
      split at hs
      · rename_i hcond
        simp only [Option.some.injEq] at hs
        subst hs
        have htm := mem_of_getElem? s.tasks j t ht
        have hnow : t.wake = s.now := hsn t htm hcond
        rw [List.pairwise_append]
        refine ⟨hsorted, by simp, ?_⟩
        intro a ha b hb
        simp only [List.mem_singleton] at hb
        subst hb
        obtain ⟨x, hx, hxs, hxe⟩ := mem_reported s.tasks a (hperm.mem_iff.mp ha)
        subst hxe
        have hle := hex x hx hxs
        have hne : x.wake ≠ t.wake := by
          intro heq
          have hxt : x = t :=
            List.inj_on_of_nodup_map (hwakes ▸ hnd) hx htm heq
          rw [hxt, hcond] at hxs
          exact absurd hxs (by simp)
        simp only
        omega
      · exact absurd hs (by simp)
  | pass =>
    simp only at hs
    split at hs
    · exact absurd hs (by simp)
    · cases hw : nextWake s.tasks with
      | none => simp [hw] at hs
      | some w =>
        simp only [hw, Option.some.injEq] at hs
        subst hs
        exact hsorted

theorem reach_sorted (ps : List Producer) (hnd : (ps.map Producer.delay).Nodup)
    (es : List Event) (s : State) (h : runWith step (init ps) es = some s) :
    s.out.Pairwise (fun a b => a.2 < b.2) :=
  (runWith_invariant step (fun x => Inv ps x ∧ x.out.Pairwise (fun a b => a.2 < b.2))
    (sorted_step ps hnd) es _ s ⟨select_inv_init ps, by simp [init]⟩ h).2

theorem exists_not_exited (ts : List Task) (h : (reported ts).length < ts.length) :
    ∃ t ∈ ts, t.status ≠ Status.exited := by
  by_contra hno
  have hall : ∀ t ∈ ts, t.status = Status.exited := by
    intro t ht
    by_contra hne
    exact hno ⟨t, ht, hne⟩
  rw [reported_of_all_exited ts hall] at h
  simp at h

theorem loop_le (ps : List Producer) (s : State) (h : Inv ps s) : s.i ≤ s.bound := by
  have h1 := h.outPerm.length_eq
  have h2 := reported_length_le s.tasks
  have h3 := congrArg List.length h.shape
  have h4 := h.count
  have h5 := h.bound
  simp at h3
  omega

/-- While the loop runs, some goroutine can take a step, after one passing of time if
need be. -/
theorem progress (ps : List Producer) (s : State) (h : Inv ps s) (hlt : s.i < s.bound) :
    ∃ es s1, runWith step s es = some s1 ∧ weight s1.tasks < weight s.tasks := by
  have hguard : ¬ s.bound ≤ s.i := by omega
  have hwake : ∀ (x : State) (j : Nat) (t : Task), ¬ x.bound ≤ x.i → x.tasks[j]? = some t →
      t.status = Status.sleeping → t.wake ≤ x.now →
      ∃ x1, step x (Event.wake j) = some x1 ∧ weight x1.tasks < weight x.tasks := by
    intro x j t hg ht hst hw
    refine ⟨{ x with tasks := update j Status.sending x.tasks }, ?_, ?_⟩
    · simp [step, hg, ht, hst, hw]
    · have := weight_update j Status.sending x.tasks t ht
      rw [hst] at this
      simp only [Status.weight] at this ⊢
      omega
  by_cases hmove : canMove s = true
  · simp only [canMove, List.any_eq_true] at hmove
    obtain ⟨t, htm, hcond⟩ := hmove
    obtain ⟨j, hj⟩ := getElem?_of_mem s.tasks t htm
    simp at hcond
    rcases hcond with hc | hc
    · obtain ⟨x1, hx1, hw1⟩ := hwake s j t hguard hj hc.1 hc.2
      exact ⟨[Event.wake j], x1, by simp [runWith, hx1], hw1⟩
    · refine ⟨[Event.recv j],
        { s with tasks := update j Status.exited s.tasks,
                 out := s.out ++ [(line t.msg, s.now)],
                 i := s.i + 1 }, ?_, ?_⟩
      · simp [runWith, step, hguard, hj, hc]
      · have := weight_update j Status.exited s.tasks t hj
        rw [hc] at this
        simp only [Status.weight] at this ⊢
        omega
  · have hmf : canMove s = false := by simpa using hmove
    have hcm := canMove_false s hmf
    have hlen : (reported s.tasks).length < s.tasks.length := by
      have h1 := h.outPerm.length_eq
      have h3 := congrArg List.length h.shape
      have h4 := h.count
      have h5 := h.bound
      simp at h3
      omega
    obtain ⟨t, htm, hne⟩ := exists_not_exited s.tasks hlen
    have hst : t.status = Status.sleeping := by
      have := (hcm t htm).2
      cases hs : t.status with
      | sleeping => rfl
      | sending => exact absurd hs this
      | exited => exact absurd hs hne
    obtain ⟨w, hw⟩ := nextWake_some s.tasks t htm hst
    obtain ⟨t0, ht0, hs0, hw0⟩ := nextWake_mem s.tasks w hw
    obtain ⟨j, hj⟩ := getElem?_of_mem s.tasks t0 ht0
    obtain ⟨x1, hx1, hw1⟩ := hwake { s with now := w } j t0 hguard hj hs0 (Nat.le_of_eq hw0)
    have hpass : step s Event.pass = some { s with now := w } := by
      simp [step, hguard, hmf, hw]
    refine ⟨[Event.pass, Event.wake j], x1, ?_, hw1⟩
    simp only [runWith, hpass, hx1]

/-- The loop ends: from every reachable state some run reaches the end of the loop. -/
theorem terminates (ps : List Producer) :
    ∀ (m : Nat) (s : State), Inv ps s → weight s.tasks ≤ m →
      ∃ es s1, runWith step s es = some s1 ∧ s1.i = s1.bound := by
  intro m
  induction m with
  | zero =>
    intro s h hw
    by_cases hlt : s.i < s.bound
    · obtain ⟨es, s1, _, hw1⟩ := progress ps s h hlt
      omega
    · exact ⟨[], s, rfl, Nat.le_antisymm (loop_le ps s h) (by omega)⟩
  | succ m ih =>
    intro s h hw
    by_cases hlt : s.i < s.bound
    · obtain ⟨es, s1, hrun, hw1⟩ := progress ps s h hlt
      have hinv1 := runWith_invariant step (Inv ps) (select_inv_step ps) es s s1 h hrun
      obtain ⟨es2, s2, hrun2, hfin⟩ := ih s1 hinv1 (by omega)
      refine ⟨es ++ es2, s2, ?_, hfin⟩
      rw [runWith_append, hrun]
      exact hrun2
    · exact ⟨[], s, rfl, Nat.le_antisymm (loop_le ps s h) (by omega)⟩

theorem loop_ends (ps : List Producer) :
    ∃ es s, runWith step (init ps) es = some s ∧ s.i = s.bound :=
  terminates ps _ (init ps) (select_inv_init ps) (Nat.le_refl _)

theorem all_exited_at_end (ps : List Producer) (s : State) (h : Inv ps s)
    (hfin : s.i = s.bound) : ∀ t ∈ s.tasks, t.status = Status.exited := by
  apply all_exited_of_length
  have h1 := h.outPerm.length_eq
  have h3 := congrArg List.length h.shape
  have h4 := h.count
  have h5 := h.bound
  simp at h3
  omega

theorem out_perm_at_end (ps : List Producer) (s : State) (h : Inv ps s)
    (hfin : s.i = s.bound) : s.out.Perm (ps.map (fun p => (line p.msg, p.delay))) := by
  have hall := all_exited_at_end ps s h hfin
  have hp := h.outPerm
  rw [reported_of_all_exited s.tasks hall] at hp
  rw [← h.shape, List.map_map]
  exact hp

theorem foldr_max_le (l : List Nat) (b : Nat) (h : ∀ x ∈ l, x ≤ b) : l.foldr max 0 ≤ b := by
  induction l with
  | nil => simp
  | cons a l ih =>
    have h1 := h a (by simp)
    have h2 := ih (fun x hx => h x (List.mem_cons_of_mem _ hx))
    simp only [List.foldr_cons]
    omega

theorem le_foldr_max (l : List Nat) (x : Nat) (h : x ∈ l) : x ≤ l.foldr max 0 := by
  induction l with
  | nil => simp at h
  | cons a l ih =>
    simp only [List.mem_cons] at h
    simp only [List.foldr_cons]
    rcases h with h | h
    · omega
    · have := ih h
      omega

theorem foldr_max_le_sum (l : List Nat) : l.foldr max 0 ≤ l.sum := by
  induction l with
  | nil => simp
  | cons a l ih =>
    simp only [List.foldr_cons, List.sum_cons]
    omega

theorem foldr_max_lt_sum (l : List Nat) (hlen : 2 ≤ l.length) (hpos : ∀ x ∈ l, 0 < x) :
    l.foldr max 0 < l.sum := by
  match l, hlen, hpos with
  | a :: b :: rest, _, hpos =>
    have ha := hpos a (by simp)
    have hb := hpos b (by simp)
    have hr := foldr_max_le_sum rest
    simp only [List.foldr_cons, List.sum_cons]
    omega

theorem now_at_end (ps : List Producer) (s : State) (h : Inv ps s) (hfin : s.i = s.bound) :
    s.now = maxDelay ps := by
  have hall := all_exited_at_end ps s h hfin
  have hwakes := wakes_eq ps s h
  unfold maxDelay
  rw [← hwakes]
  apply Nat.le_antisymm
  · rcases h.clock with h0 | ⟨t, ht, hw⟩
    · omega
    · rw [← hw]
      exact le_foldr_max _ _ (List.mem_map_of_mem _ ht)
  · apply foldr_max_le
    intro x hx
    obtain ⟨t, ht, hxt⟩ := List.mem_map.mp hx
    rw [← hxt]
    exact h.exitedPast t ht (hall t ht)

theorem time_le_now (ps : List Producer) (s : State) (h : Inv ps s) :
    ∀ e ∈ s.out, e.2 ≤ s.now := by
  intro e he
  obtain ⟨t, ht, hts, hte⟩ := mem_reported s.tasks e (h.outPerm.mem_iff.mp he)
  rw [hte]
  exact h.exitedPast t ht hts

/-- C6: fan-in collection.  For producers with pairwise distinct delays, each sending one
value on its own channel, the select loop ends, and when it has ended it has printed exactly
one line per producer, each producer's line exactly once and at the end of that producer's
sleep, at strictly increasing times (completion order), every send is matched, and the last
line is that of the producer with the largest delay.  For the two producers of the program
("one" after 1 s, "two" after 2 s) the output is `received one`, then `received two`. -/
theorem fan_in_collection :
    (∀ ps : List Producer, (ps.map Producer.delay).Nodup →
      (∃ es s, runWith step (init ps) es = some s ∧ s.i = s.bound) ∧
      (∀ es s, runWith step (init ps) es = some s →
        s.out.Pairwise (fun a b => a.2 < b.2) ∧
        (s.i = s.bound →
          s.out.length = ps.length ∧
          s.out.Perm (ps.map (fun p => (line p.msg, p.delay))) ∧
          (∀ t ∈ s.tasks, t.status = Status.exited) ∧
          (∀ e, s.out.getLast? = some e →
            ∃ p ∈ ps, e = (line p.msg, p.delay) ∧ ∀ q ∈ ps, q.delay ≤ p.delay)))) ∧
    (∀ es s, runWith step main es = some s → s.i = s.bound →
      s.out = [("received one", 1000), ("received two", 2000)]) := by
  have hgen : ∀ ps : List Producer, (ps.map Producer.delay).Nodup →
      ∀ es s, runWith step (init ps) es = some s →
        s.out.Pairwise (fun a b => a.2 < b.2) ∧
        (s.i = s.bound →
          s.out.length = ps.length ∧
          s.out.Perm (ps.map (fun p => (line p.msg, p.delay))) ∧
          (∀ t ∈ s.tasks, t.status = Status.exited) ∧
          (∀ e, s.out.getLast? = some e →
            ∃ p ∈ ps, e = (line p.msg, p.delay) ∧ ∀ q ∈ ps, q.delay ≤ p.delay)) := by
    intro ps hnd es s h
    have hinv := select_reach_inv ps es s h
    have hsorted := reach_sorted ps hnd es s h
    refine ⟨hsorted, fun hfin => ?_⟩
    have hperm := out_perm_at_end ps s hinv hfin
    refine ⟨by simpa using hperm.length_eq, hperm, all_exited_at_end ps s hinv hfin, ?_⟩
    intro e he
    obtain ⟨ys, hys⟩ := List.getLast?_eq_some_iff.mp he
    have hmem : e ∈ s.out := by rw [hys]; simp
    obtain ⟨p, hp, hpe⟩ := List.mem_map.mp (hperm.mem_iff.mp hmem)
    refine ⟨p, hp, hpe.symm, ?_⟩
    intro q hq
    have hqm : (line q.msg, q.delay) ∈ s.out :=
      hperm.mem_iff.mpr (List.mem_map.mpr ⟨q, hq, rfl⟩)
    rw [hys] at hqm hsorted
    rw [List.pairwise_append] at hsorted
    simp only [List.mem_append, List.mem_singleton] at hqm
    rcases hqm with hqm | hqm
    · have := hsorted.2.2 _ hqm e (by simp)
      rw [← hpe] at this
      simp only at this
      omega
    · rw [← hpe] at hqm
      simp only [Prod.mk.injEq] at hqm
      omega
  refine ⟨fun ps hnd => ⟨loop_ends ps, hgen ps hnd⟩, ?_⟩
  intro es s h hfin
  have hg := hgen [{ delay := 1000, msg := "one" }, { delay := 2000, msg := "two" }]
    (by decide) es s h
  have hperm := (hg.2 hfin).2.1
  have hmap : ([{ delay := 1000, msg := "one" }, { delay := 2000, msg := "two" }] :
      List Producer).map (fun p => (line p.msg, p.delay)) =
      [("received one", 1000), ("received two", 2000)] := by decide
  rw [hmap] at hperm
  haveI : IsAntisymm (String × Nat) (fun a b => a.2 < b.2) :=
    ⟨fun a b h1 h2 => absurd h1 (Nat.lt_asymm h2)⟩
  exact List.eq_of_perm_of_sorted hperm hg.1 (by simp)

/-- The output of C6 on the schedule of the program. -/
theorem fan_in_collection_witness :
    ([{ delay := 1000, msg := "one" }, { delay := 2000, msg := "two" }] :
      List Producer).map Producer.delay = [1000, 2000] ∧
    ∃ s, runWith step main mainSchedule = some s ∧ s.i = s.bound ∧
      s.out = [("received one", 1000), ("received two", 2000)] ∧
      s.out.length = 2 := by
  refine ⟨rfl, _, rfl, rfl, fan_in_collection.2 mainSchedule _ rfl rfl, ?_⟩
  exact ((fan_in_collection.1 [{ delay := 1000, msg := "one" }, { delay := 2000, msg := "two" }]
    (by decide)).2 mainSchedule _ rfl).2 rfl |>.1

/-- C7: fan-in latency.  Collecting the results of concurrently running producers takes the
maximum of their delays, not their sum: the select loop ends; when it has ended it has
collected one line per producer, the line of each producer at the end of that producer's
sleep, and every goroutine has completed its send; it ends exactly when the longest sleep
ends; and that time is below the sum of the delays as soon as two producers have a positive
delay.  For the two producers of the program (1 s and 2 s) both lines are collected and the
loop ends at 2 s, which is less than 1.5 times 2 s and less than 3 s. -/
theorem fan_in_latency :
    (∀ ps : List Producer,
      (∃ es s, runWith step (init ps) es = some s ∧ s.i = s.bound) ∧
      (∀ es s, runWith step (init ps) es = some s → s.i = s.bound →
        s.out.length = ps.length ∧
        s.out.Perm (ps.map (fun p => (line p.msg, p.delay))) ∧
        (∀ t ∈ s.tasks, t.status = Status.exited) ∧
        s.now = maxDelay ps ∧ s.now ≤ sumDelay ps ∧ ∀ e ∈ s.out, e.2 ≤ s.now) ∧
      (2 ≤ ps.length → (∀ p ∈ ps, 0 < p.delay) → maxDelay ps < sumDelay ps)) ∧
    (∀ es s, runWith step main es = some s → s.i = s.bound →
      s.out.Perm [("received one", 1000), ("received two", 2000)] ∧
      s.now = 2000 ∧ 2 * s.now < 3 * 2000 ∧ s.now < 1000 + 2000) := by
  refine ⟨fun ps => ⟨loop_ends ps, ?_, ?_⟩, ?_⟩
  · intro es s h hfin
    have hinv := select_reach_inv ps es s h
    have hnow := now_at_end ps s hinv hfin
    have hperm := out_perm_at_end ps s hinv hfin
    refine ⟨by simpa using hperm.length_eq, hperm, all_exited_at_end ps s hinv hfin, hnow, ?_,
      time_le_now ps s hinv⟩
    rw [hnow]
    exact foldr_max_le_sum _
  · intro hlen hpos
    apply foldr_max_lt_sum
    · simpa using hlen
    · intro x hx
      obtain ⟨p, hp, hpx⟩ := List.mem_map.mp hx
      rw [← hpx]
      exact hpos p hp
  · intro es s h hfin
    have hinv := select_reach_inv _ es s h
    have hnow := now_at_end _ s hinv hfin
    have hperm := out_perm_at_end _ s hinv hfin
    have hmap : ([{ delay := 1000, msg := "one" }, { delay := 2000, msg := "two" }] :
        List Producer).map (fun p => (line p.msg, p.delay)) =
        [("received one", 1000), ("received two", 2000)] := by decide
    rw [hmap] at hperm
    have hmax : maxDelay [{ delay := 1000, msg := "one" }, { delay := 2000, msg := "two" }]
        = 2000 := by decide
    rw [hmax] at hnow
    exact ⟨hperm, by omega, by omega, by omega⟩

/-- The end of the loop of C7 on the schedule of the program. -/
theorem fan_in_latency_witness :
    ∃ s, runWith step main mainSchedule = some s ∧ s.i = s.bound ∧
      s.out = [("received one", 1000), ("received two", 2000)] ∧
      s.out.length = 2 ∧ s.now = 2000 ∧
      maxDelay [{ delay := 1000, msg := "one" }, { delay := 2000, msg := "two" }] = 2000 ∧
      sumDelay [{ delay := 1000, msg := "one" }, { delay := 2000, msg := "two" }] = 3000 := by
  have h := (fan_in_latency.1
    [{ delay := 1000, msg := "one" }, { delay := 2000, msg := "two" }]).2.1
    mainSchedule _ rfl rfl
  exact ⟨_, rfl, rfl, by decide, h.1, h.2.2.2.1, by decide, by decide⟩

end Select


end GoByExample
